import Mathlib

/-!
Verification of the set-associative cache engine of the ECE463-MicroArch
repository (`Project1/Code/cache.h` / `cache.cc`).

The C++ `Cache` class is embedded shallowly: member functions become pure Lean
functions on an explicit `Cache` state; the optional `Cache* next_level`
pointer becomes an `Option Cache` threaded through the miss path.  The 64-bit
statistics counters are modelled as unbounded naturals: they are write-only
accumulators never read back by the code, and no execution can perform
`2 ^ 64` events.  The 32-bit `lru_age` recency field, which IS read back (by
victim selection and the snapshot sort) and CAN wrap within a long run, is
modelled faithfully: `++ln.lru_age` becomes `(lru_age + 1) % 2 ^ 32`.  All
32-bit address arithmetic (`uint32_t` casts, masks, shifts) likewise carries
explicit `% 2 ^ 32` / `% 2 ^ 64` reductions where the source truncates.
-/

namespace CacheSim

/-- The source's `Cache::Op` from cache.h. -/
inductive Op where
  | Read : Op
  | Write : Op
deriving DecidableEq, Repr

/-- The source's `Cache::Line` from cache.h: default member initializers give
`valid = false`, `dirty = false`, `tag = 0`, `lru_age = 0`. -/
structure Line where
  valid : Bool
  dirty : Bool
  tag : Nat
  lru_age : Nat
deriving DecidableEq, Repr

instance : Inhabited Line := ⟨⟨false, false, 0, 0⟩⟩

/-- The source's `AccessStats` from cache.h. -/
structure AccessStats where
  reads : Nat
  read_misses : Nat
  writes : Nat
  write_misses : Nat
  writebacks : Nat
  memory_reads : Nat
  memory_writes : Nat
  pref_issued : Nat
  pref_useful : Nat
  pref_late : Nat
deriving DecidableEq, Repr

/-- The source's `AccessStats::AccessStats()`: every counter starts at zero. -/
def AccessStats.zero : AccessStats := ⟨0, 0, 0, 0, 0, 0, 0, 0, 0, 0⟩

/-- The source's `CacheConfig` from cache.h (the `name` string is used only for report
headings and carries no cache semantics). -/
structure CacheConfig where
  size_bytes : Nat
  assoc : Nat
  block_bytes : Nat
deriving DecidableEq, Repr

/-- The `Cache` class state: configuration, counters, derived geometry and
the two-dimensional `sets_vec_[set][way]` line storage. -/
structure Cache where
  cfg : CacheConfig
  stats : AccessStats
  sets_ : Nat
  off_bits_ : Nat
  idx_bits_ : Nat
  idx_mask_ : Nat
  sets_vec_ : List (List Line)
deriving DecidableEq, Repr

/-- The loop of `ilog2_uint32` from cache.cc (`while ((1u << n) < x) ++n;
return n;`), written with an explicit iteration bound so that it is
structurally recursive.  Since `x ≤ 2 ^ x`, a bound of `x` iterations is
never exhausted. -/
def ilog2_from (x : Nat) : Nat → Nat → Nat
  | 0, n => n
  | fuel + 1, n => if 2 ^ n < x then ilog2_from x fuel (n + 1) else n

/-- The source's `ilog2_uint32` from cache.cc (its assert requires `x` to be a power of
two; on powers of two the loop computes the exact base-2 logarithm). -/
def ilog2_uint32 (x : Nat) : Nat := ilog2_from x x 0

/-- One freshly initialized line of `Cache::init_storage_`:
default-constructed, then `lru_age = w` (larger means older). -/
def initLine (w : Nat) : Line := ⟨false, false, 0, w⟩

/-- One freshly initialized set of `Cache::init_storage_`. -/
def initSet (assoc : Nat) : List Line := (List.range assoc).map initLine

/-- The `Cache(cfg)` constructor: `compute_geometry_` followed by
`init_storage_`. -/
def Cache.construct (cfg : CacheConfig) : Cache :=
  let sets := cfg.size_bytes / (cfg.assoc * cfg.block_bytes)
  let off := ilog2_uint32 cfg.block_bytes
  let idx := ilog2_uint32 sets
  ⟨cfg, AccessStats.zero, sets, off, idx, 2 ^ idx - 1,
    (List.range sets).map (fun _ => initSet cfg.assoc)⟩

/-- The source's `Cache::index_of`: `(addr >> off_bits_) & idx_mask_`. -/
def Cache.index_of (c : Cache) (addr : Nat) : Nat :=
  (addr >>> c.off_bits_) &&& c.idx_mask_

/-- The source's `Cache::tag_of`: `addr >> (off_bits_ + idx_bits_)`. -/
def Cache.tag_of (c : Cache) (addr : Nat) : Nat :=
  addr >>> (c.off_bits_ + c.idx_bits_)

/-- The source's `Cache::block_aligned`: `addr & ~((uint32_t)block_bytes - 1U)`, with the
32-bit complement written out explicitly. -/
def Cache.block_aligned (c : Cache) (addr : Nat) : Nat :=
  addr &&& ((2 ^ 32 - 1) ^^^ ((c.cfg.block_bytes - 1) % 2 ^ 32))

/-- The set `sets_vec_[set]` (empty when out of range). -/
def Cache.lines_at (c : Cache) (set : Nat) : List Line :=
  c.sets_vec_.getD set []

/-- The line `sets_vec_[set][way]` (default line when out of range). -/
def Cache.line_at (c : Cache) (set way : Nat) : Line :=
  (c.lines_at set).getD way default

/-- The scan of `Cache::find_way`: first way holding a valid line with the
requested tag (`-1` in the source becomes `none`). -/
def find_way_scan (lines : List Line) (tag : Nat) : Option Nat :=
  lines.findIdx? (fun ln => ln.valid && ln.tag == tag)

/-- The source's `Cache::find_way`. -/
def Cache.find_way (c : Cache) (set tag : Nat) : Option Nat :=
  find_way_scan (c.lines_at set) tag

/-- The loop of `Cache::choose_victim_way`: return the first invalid way,
else track the running maximum age with `lru_age >= max_age` (so ties move
the victim to the later way). -/
def choose_victim_scan : List Line → Nat → Nat → Nat → Nat
  | [], _, victim, _ => victim
  | ln :: rest, w, victim, max_age =>
    if ln.valid = false then w
    else if max_age ≤ ln.lru_age then choose_victim_scan rest (w + 1) w ln.lru_age
    else choose_victim_scan rest (w + 1) victim max_age

/-- The source's `Cache::choose_victim_way` (`victim = 0`, `max_age = 0` initially). -/
def Cache.choose_victim_way (c : Cache) (set : Nat) : Nat :=
  choose_victim_scan (c.lines_at set) 0 0 0

/-- The aging step of `Cache::touch_as_mru`: `if (ln.valid) ++ln.lru_age`,
where `lru_age` is a `uint32_t`, so the increment wraps at `2 ^ 32`. -/
def age_valid (ln : Line) : Line :=
  if ln.valid then ⟨ln.valid, ln.dirty, ln.tag, (ln.lru_age + 1) % 2 ^ 32⟩ else ln

/-- The source's `Cache::touch_as_mru` on one set: bump all valid ages, then
`lines[way].lru_age = 0`. -/
def touch_as_mru_set (lines : List Line) (way : Nat) : List Line :=
  List.modify (fun ln => ⟨ln.valid, ln.dirty, ln.tag, 0⟩) way (lines.map age_valid)

/-- The source's `Cache::touch_as_mru`. -/
def Cache.touch_as_mru (c : Cache) (set way : Nat) : Cache :=
  { c with sets_vec_ := List.modify (fun lines => touch_as_mru_set lines way) set c.sets_vec_ }

/-- The source's `Cache::fill_line` on one set: overwrite the victim way with a valid
line carrying the new tag and dirty flag, then `touch_as_mru`. -/
def fill_line_set (lines : List Line) (way tag : Nat) (dirty : Bool) : List Line :=
  touch_as_mru_set (List.modify (fun ln => ⟨true, dirty, tag, ln.lru_age⟩) way lines) way

/-- The source's `Cache::fill_line`. -/
def Cache.fill_line (c : Cache) (set way tag : Nat) (dirty : Bool) : Cache :=
  { c with sets_vec_ := List.modify (fun lines => fill_line_set lines way tag dirty) set c.sets_vec_ }

/-- The victim address reconstruction of `Cache::allocate_on_miss`:
`static_cast<uint32_t>((tag << (idx_bits_ + off_bits_)) | ((uint32_t)set << off_bits_))`,
with the intermediate 64-bit shift and the 32-bit casts made explicit. -/
def victim_block_addr_of (tag set idx_bits off_bits : Nat) : Nat :=
  ((tag <<< (idx_bits + off_bits)) % 2 ^ 64 |||
    ((set % 2 ^ 32) <<< off_bits) % 2 ^ 32) % 2 ^ 32

/-- The source's `if (op == Op::Read) stats_.reads += 1; else stats_.writes += 1;`. -/
def Cache.count_total (c : Cache) (op : Op) : Cache :=
  if op = Op.Read then
    { c with stats := { c.stats with reads := c.stats.reads + 1 } }
  else
    { c with stats := { c.stats with writes := c.stats.writes + 1 } }

/-- The source's `if (op == Op::Read) stats_.read_misses += 1; else stats_.write_misses += 1;`. -/
def Cache.count_miss (c : Cache) (op : Op) : Cache :=
  if op = Op.Read then
    { c with stats := { c.stats with read_misses := c.stats.read_misses + 1 } }
  else
    { c with stats := { c.stats with write_misses := c.stats.write_misses + 1 } }

/-- The source's `sets_vec_[set][way].dirty = true;` of the write-hit path. -/
def Cache.mark_dirty (c : Cache) (set way : Nat) : Cache :=
  { c with sets_vec_ :=
      List.modify (fun lines =>
        List.modify (fun ln => ⟨ln.valid, true, ln.tag, ln.lru_age⟩) way lines) set c.sets_vec_ }

/-- The source's `Cache::writeback_down` with `next_level == nullptr`: count a
`memory_write` and a `writeback`. -/
def Cache.writeback_down1 (c : Cache) : Cache :=
  { c with stats := { c.stats with
      memory_writes := c.stats.memory_writes + 1,
      writebacks := c.stats.writebacks + 1 } }

/-- The source's `Cache::allocate_on_miss` with `next_level == nullptr`: choose a victim,
write back a valid dirty victim to memory, count a `memory_read` for the
fill, then `fill_line`. -/
def Cache.allocate_on_miss1 (c : Cache) (addr : Nat) (make_dirty : Bool) : Cache :=
  let set := c.index_of addr
  let tag := c.tag_of addr
  let victim := c.choose_victim_way set
  let vline := c.line_at set victim
  let c1 := if vline.valid && vline.dirty then c.writeback_down1 else c
  let c2 := { c1 with stats := { c1.stats with
      memory_reads := c1.stats.memory_reads + 1 } }
  Cache.fill_line c2 set victim tag make_dirty

/-- The source's `Cache::access` with `next_level == nullptr` — the form in which the
source invokes `access` from inside the miss path, which therefore never
recurses further.  The agreement with the general `Cache.access` at `none`
is proved in `Cache.access_none`. -/
def Cache.access1 (c : Cache) (op : Op) (addr : Nat) : Bool × Cache :=
  let set := c.index_of addr
  let tag := c.tag_of addr
  let c0 := c.count_total op
  match c0.find_way set tag with
  | some way =>
    let c1 := if op = Op.Write then c0.mark_dirty set way else c0
    (true, c1.touch_as_mru set way)
  | none =>
    let c1 := c0.count_miss op
    (false, Cache.allocate_on_miss1 c1 addr (op == Op.Write))

/-- The source's `Cache::writeback_down`: forward a synthetic write of the victim block
address to the next level (with `nullptr` as ITS next level), or count a
`memory_write`; always count a `writeback`.  Returns the updated self and
the updated next level. -/
def Cache.writeback_down (c : Cache) (victim_block_addr : Nat)
    (next_level : Option Cache) : Cache × Option Cache :=
  match next_level with
  | some nl =>
    let r := Cache.access1 nl Op.Write victim_block_addr
    ({ c with stats := { c.stats with writebacks := c.stats.writebacks + 1 } }, some r.2)
  | none => (c.writeback_down1, none)

/-- The source's `Cache::allocate_on_miss`: choose a victim, write back a valid dirty
victim, then fill from the next level (a synthetic block-aligned read, with
`nullptr` as ITS next level) or from memory, then `fill_line`. -/
def Cache.allocate_on_miss (c : Cache) (addr : Nat) (next_level : Option Cache)
    (make_dirty : Bool) : Cache × Option Cache :=
  match next_level with
  | some nl =>
    let set := c.index_of addr
    let tag := c.tag_of addr
    let victim := c.choose_victim_way set
    let vline := c.line_at set victim
    let vaddr := victim_block_addr_of vline.tag set c.idx_bits_ c.off_bits_
    let wb := if vline.valid && vline.dirty then
        Cache.writeback_down c vaddr (some nl) else (c, some nl)
    let nl1 := wb.2.getD nl
    let r := Cache.access1 nl1 Op.Read (wb.1.block_aligned addr)
    (Cache.fill_line wb.1 set victim tag make_dirty, some r.2)
  | none => (Cache.allocate_on_miss1 c addr make_dirty, none)

/-- The source's `Cache::access`: count the total, search the set; on a hit mark dirty on
a write, touch as MRU and return `true`; on a miss count the miss, run
`allocate_on_miss` (write-allocate on both read and write misses) and
return `false`. -/
def Cache.access (c : Cache) (op : Op) (addr : Nat) (next_level : Option Cache) :
    Bool × Cache × Option Cache :=
  let set := c.index_of addr
  let tag := c.tag_of addr
  let c0 := c.count_total op
  match c0.find_way set tag with
  | some way =>
    let c1 := if op = Op.Write then c0.mark_dirty set way else c0
    (true, c1.touch_as_mru set way, next_level)
  | none =>
    let c1 := c0.count_miss op
    let r := Cache.allocate_on_miss c1 addr next_level (op == Op.Write)
    (false, r.1, r.2)

/-- One driver step per trace event: the returned self state replaces the
cache; the next-level argument of each call is arbitrary. -/
def Cache.run (c : Cache) : List (Op × Nat × Option Cache) → Cache
  | [] => c
  | (op, addr, nl) :: rest => Cache.run (Cache.access c op addr nl).2.1 rest

/-- The per-set body of `Cache::print_contents`: the valid lines, sorted by
`lru_age` ascending (MRU first), projected to (tag, dirty) pairs. -/
def snapshot_set (lines : List Line) : List (Nat × Bool) :=
  ((lines.filter (fun ln => ln.valid)).mergeSort
      (fun a b => decide (a.lru_age ≤ b.lru_age))).map
    (fun ln => (ln.tag, ln.dirty))

/-- The source's `Cache::print_contents`: for each set index in order, emit the set's
(tag, dirty) pairs MRU→LRU, skipping sets with no valid line.  The stream
formatting carries no cache semantics; the emitted data is modelled. -/
def Cache.print_contents (c : Cache) : List (Nat × List (Nat × Bool)) :=
  (List.range c.sets_).filterMap (fun s =>
    if (c.lines_at s).filter (fun ln => ln.valid) = [] then none
    else some (s, snapshot_set (c.lines_at s)))

/-- Modelled from the spec: `Cache::reset` is declared in cache.h but its
definition is absent from the sources.  Per the spec it "returns every Line
to invalid and every counter to zero, as if freshly constructed": zero the
stats and re-run the `init_storage_` initialization on the same geometry. -/
def Cache.reset (c : Cache) : Cache :=
  { c with stats := AccessStats.zero,
           sets_vec_ := (List.range c.sets_).map (fun _ => initSet c.cfg.assoc) }

/-! ### Statement forms of the claimed properties -/

/-- The recency-update contract of `touch_as_mru` (spec §4.1 "Recency
update rule"), amended for the 32-bit recency field: the touched way ends
at recency `0`, the minimum over the set; every other valid way ages by
exactly one modulo `2 ^ 32` (the bare "one greater" claim fails when a
recency sits at `2 ^ 32 - 1`, where the `uint32_t` increment wraps to `0`);
invalid ways are untouched. -/
def mru_update_post (c : Cache) (set way : Nat) : Prop :=
  ((c.touch_as_mru set way).line_at set way).lru_age = 0 ∧
  (∀ w, w < (c.lines_at set).length →
    ((c.touch_as_mru set way).line_at set way).lru_age ≤
      ((c.touch_as_mru set way).line_at set w).lru_age) ∧
  (∀ w, w < (c.lines_at set).length → w ≠ way →
    ((c.line_at set w).valid = true →
      ((c.touch_as_mru set way).line_at set w).lru_age =
        ((c.line_at set w).lru_age + 1) % 2 ^ 32) ∧
    ((c.line_at set w).valid = false →
      (c.touch_as_mru set way).line_at set w = c.line_at set w))

/-- The victim-selection contract of `choose_victim_way` (spec §4.1 miss
protocol step 1): an invalid way when one exists, else the way with the
largest recency, ties broken toward the highest way index. -/
def victim_selection_post (c : Cache) (set : Nat) : Prop :=
  ((∃ w, w < (c.lines_at set).length ∧
      ((c.lines_at set).getD w default).valid = false) →
    c.choose_victim_way set < (c.lines_at set).length ∧
      ((c.lines_at set).getD (c.choose_victim_way set) default).valid = false) ∧
  ((∀ w, w < (c.lines_at set).length →
      ((c.lines_at set).getD w default).valid = true) →
    c.choose_victim_way set < (c.lines_at set).length ∧
      (∀ w, w < (c.lines_at set).length →
        ((c.lines_at set).getD w default).lru_age ≤
          ((c.lines_at set).getD (c.choose_victim_way set) default).lru_age) ∧
      (∀ w, w < (c.lines_at set).length →
        ((c.lines_at set).getD w default).lru_age =
          ((c.lines_at set).getD (c.choose_victim_way set) default).lru_age →
        w ≤ c.choose_victim_way set))

/-- Every valid line's recency is at most `b` (each access raises any
recency by at most one, so a run of `n` accesses keeps recencies below
`n`, away from the `uint32_t` wrap). -/
def AgeBound (b : Nat) (c : Cache) : Prop :=
  ∀ s w, w < (c.lines_at s).length →
    ((c.lines_at s).getD w default).valid = true →
    ((c.lines_at s).getD w default).lru_age ≤ b

/-- The one-set state reached from a fresh 64-byte, 2-way, 32-byte-block
cache by two read misses (tags 0 and 1) followed by repeated read hits on
the tag-1 way: after the misses and `n` hits, way 0 holds tag 0 at recency
`(1 + n) % 2 ^ 32` with `reads = 2 + n`, and way 1 holds tag 1 at recency
`0`.  Used to exhibit the recency wraparound. -/
def wrapState (a r : Nat) : Cache :=
  ⟨⟨64, 2, 32⟩, ⟨r, 2, 0, 0, 0, 2, 0, 0, 0, 0⟩, 1, 5, 0, 0,
    [[⟨true, false, 0, a⟩, ⟨true, false, 1, 0⟩]]⟩

/-- The hit/miss contract of one `access` call (spec §4.1 "Operation
`access`"): the call reports a hit exactly when the indexed set holds a
valid line with the address's tag; a hit marks the line dirty on a write
and leaves `dirty` alone on a read, makes the line most-recently-used,
forwards nothing, and changes no miss counter; a miss reports "miss". -/
def hit_post (c : Cache) (op : Op) (addr : Nat) (next : Option Cache) : Prop :=
  ((c.access op addr next).1 = true ↔
    ∃ ln ∈ c.lines_at (c.index_of addr), ln.valid = true ∧ ln.tag = c.tag_of addr) ∧
  (∀ way, c.find_way (c.index_of addr) (c.tag_of addr) = some way →
    (c.access op addr next).2.2 = next ∧
    ((c.access op addr next).2.1).stats.read_misses = c.stats.read_misses ∧
    ((c.access op addr next).2.1).stats.write_misses = c.stats.write_misses ∧
    ((c.access op addr next).2.1).stats.writebacks = c.stats.writebacks ∧
    ((c.access op addr next).2.1).stats.memory_reads = c.stats.memory_reads ∧
    ((c.access op addr next).2.1).stats.memory_writes = c.stats.memory_writes ∧
    (((c.access op addr next).2.1).line_at (c.index_of addr) way).valid =
      (c.line_at (c.index_of addr) way).valid ∧
    (((c.access op addr next).2.1).line_at (c.index_of addr) way).tag =
      (c.line_at (c.index_of addr) way).tag ∧
    (((c.access op addr next).2.1).line_at (c.index_of addr) way).dirty =
      (if op = Op.Write then true else (c.line_at (c.index_of addr) way).dirty) ∧
    (((c.access op addr next).2.1).line_at (c.index_of addr) way).lru_age = 0 ∧
    (∀ w, w < (c.lines_at (c.index_of addr)).length →
      (((c.access op addr next).2.1).line_at (c.index_of addr) way).lru_age ≤
        (((c.access op addr next).2.1).line_at (c.index_of addr) w).lru_age)) ∧
  (c.find_way (c.index_of addr) (c.tag_of addr) = none →
    (c.access op addr next).1 = false)

/-- The install contract of the miss path (spec §4.1 miss protocol step 4):
every miss installs into the chosen victim way a valid line carrying the
requesting address's tag, dirty exactly when the triggering operation was a
write, and most-recently-used — whatever the next level did. -/
def install_post (c : Cache) (op : Op) (addr : Nat) (next : Option Cache) : Prop :=
  ((c.access op addr next).2.1).line_at (c.index_of addr)
      (c.choose_victim_way (c.index_of addr)) =
    ⟨true, op == Op.Write, c.tag_of addr, 0⟩ ∧
  ∀ w, (((c.access op addr next).2.1).line_at (c.index_of addr)
      (c.choose_victim_way (c.index_of addr))).lru_age ≤
    (((c.access op addr next).2.1).line_at (c.index_of addr) w).lru_age

/-- The writeback contract of the miss path (spec §4.1 miss protocol
steps 2-3): a valid dirty victim costs exactly one `writebacks` increment
and produces exactly one synthetic write into the next level (carrying the
reconstructed victim address, forwarded no further) strictly before the
single fill read, or one `memory_writes` increment when there is no next
level; a clean or invalid victim produces neither. -/
def writeback_post (c : Cache) (addr : Nat) (next : Option Cache) (d : Bool) : Prop :=
  (((c.line_at (c.index_of addr) (c.choose_victim_way (c.index_of addr))).valid = true ∧
      (c.line_at (c.index_of addr) (c.choose_victim_way (c.index_of addr))).dirty = true) →
    ((c.allocate_on_miss addr next d).1).stats.writebacks = c.stats.writebacks + 1 ∧
    (∀ nl, next = some nl →
      ((c.allocate_on_miss addr next d).1).stats.memory_writes = c.stats.memory_writes ∧
      (c.allocate_on_miss addr next d).2 =
        some ((Cache.access1
          ((Cache.access1 nl Op.Write
            (victim_block_addr_of
              (c.line_at (c.index_of addr) (c.choose_victim_way (c.index_of addr))).tag
              (c.index_of addr) c.idx_bits_ c.off_bits_)).2)
          Op.Read (c.block_aligned addr)).2)) ∧
    (next = none →
      ((c.allocate_on_miss addr next d).1).stats.memory_writes =
        c.stats.memory_writes + 1)) ∧
  ((¬((c.line_at (c.index_of addr) (c.choose_victim_way (c.index_of addr))).valid = true ∧
      (c.line_at (c.index_of addr) (c.choose_victim_way (c.index_of addr))).dirty = true)) →
    ((c.allocate_on_miss addr next d).1).stats.writebacks = c.stats.writebacks ∧
    ((c.allocate_on_miss addr next d).1).stats.memory_writes = c.stats.memory_writes ∧
    (∀ nl, next = some nl →
      (c.allocate_on_miss addr next d).2 =
        some ((Cache.access1 nl Op.Read (c.block_aligned addr)).2)))

/-- Componentwise order on the statistics counters. -/
def StatsLE (a b : AccessStats) : Prop :=
  a.reads ≤ b.reads ∧ a.read_misses ≤ b.read_misses ∧
  a.writes ≤ b.writes ∧ a.write_misses ≤ b.write_misses ∧
  a.writebacks ≤ b.writebacks ∧ a.memory_reads ≤ b.memory_reads ∧
  a.memory_writes ≤ b.memory_writes ∧ a.pref_issued ≤ b.pref_issued ∧
  a.pref_useful ≤ b.pref_useful ∧ a.pref_late ≤ b.pref_late

/-- The counter invariants over a whole run (spec §8): totals count the
trace, misses never exceed totals, prefetch counters stay zero, and every
counter is monotone along the run. -/
def trace_stats_post (cfg : CacheConfig) (tr : List (Op × Nat × Option Cache)) : Prop :=
  (Cache.run (Cache.construct cfg) tr).stats.reads +
    (Cache.run (Cache.construct cfg) tr).stats.writes = tr.length ∧
  (Cache.run (Cache.construct cfg) tr).stats.read_misses ≤
    (Cache.run (Cache.construct cfg) tr).stats.reads ∧
  (Cache.run (Cache.construct cfg) tr).stats.write_misses ≤
    (Cache.run (Cache.construct cfg) tr).stats.writes ∧
  (Cache.run (Cache.construct cfg) tr).stats.pref_issued = 0 ∧
  (Cache.run (Cache.construct cfg) tr).stats.pref_useful = 0 ∧
  (Cache.run (Cache.construct cfg) tr).stats.pref_late = 0 ∧
  ∀ i j, i ≤ j →
    StatsLE (Cache.run (Cache.construct cfg) (tr.take i)).stats
      (Cache.run (Cache.construct cfg) (tr.take j)).stats

/-- No set ever holds two valid lines with the same tag (spec §8). -/
def NoDupValidTags (c : Cache) : Prop :=
  ∀ s i j, i < j → j < (c.lines_at s).length →
    ((c.lines_at s).getD i default).valid = true →
    ((c.lines_at s).getD j default).valid = true →
    ((c.lines_at s).getD i default).tag ≠ ((c.lines_at s).getD j default).tag

/-- The valid lines of any one set have pairwise distinct recencies (the
property C10 claims of every reachable state; it holds of runs too short
for a 32-bit recency counter to wrap, and fails beyond that). -/
def DistinctValidAges (c : Cache) : Prop :=
  ∀ s i j, i < j → j < (c.lines_at s).length →
    ((c.lines_at s).getD i default).valid = true →
    ((c.lines_at s).getD j default).valid = true →
    ((c.lines_at s).getD i default).lru_age ≠ ((c.lines_at s).getD j default).lru_age

/-- The contents-snapshot contract (spec §4.1 snapshot operation): the
emitted entries are exactly the sets holding at least one valid line, each
carrying its valid lines as (tag, dirty) pairs ordered from most- to
least-recently-used; and the operation is pure, so repeating it yields
identical output. -/
def snapshot_post (c : Cache) : Prop :=
  (∀ s out, ((s, out) ∈ c.print_contents ↔
      (s < c.sets_ ∧ ¬((c.lines_at s).filter (fun ln => ln.valid) = []) ∧
        out = snapshot_set (c.lines_at s)))) ∧
  (∀ s, ∃ l : List Line,
      List.Perm l ((c.lines_at s).filter (fun ln => ln.valid)) ∧
      List.Pairwise (fun a b => a.lru_age ≤ b.lru_age) l ∧
      snapshot_set (c.lines_at s) = l.map (fun ln => (ln.tag, ln.dirty))) ∧
  c.print_contents = c.print_contents

/-- A small concrete cache state used by the witnesses: one set of two
valid lines with distinct recencies (way 0 MRU, way 1 LRU and dirty). -/
def sampleCacheA : Cache :=
  ⟨⟨32, 2, 16⟩, AccessStats.zero, 1, 4, 0, 0,
    [[⟨true, false, 3, 0⟩, ⟨true, true, 5, 1⟩]]⟩

/-- A concrete cache state with an invalid way, used by the witnesses. -/
def sampleCacheB : Cache :=
  ⟨⟨32, 2, 16⟩, AccessStats.zero, 1, 4, 0, 0,
    [[⟨false, false, 0, 0⟩, ⟨true, true, 5, 1⟩]]⟩

/-! ### Agreement of `access1` with `access` at a missing next level -/

/-- The source's `Cache.access1` is exactly `Cache.access` with `next_level == nullptr`,
as the source's nested calls use it. -/
theorem Cache.access_none (c : Cache) (op : Op) (addr : Nat) :
    c.access op addr none = ((c.access1 op addr).1, (c.access1 op addr).2, none) := by
  unfold Cache.access Cache.access1 Cache.allocate_on_miss
  cases h : (c.count_total op).find_way (c.index_of addr) (c.tag_of addr) <;> simp [h]

/-! ### The hit-detection scan -/

/-- The source's `find_way` returns `none` exactly when no valid line with the requested
tag is present. -/
theorem find_way_scan_none_iff (lines : List Line) (tag : Nat) :
    find_way_scan lines tag = none ↔
      ∀ ln ∈ lines, ¬(ln.valid = true ∧ ln.tag = tag) := by
  unfold find_way_scan
  rw [List.findIdx?_eq_none_iff]
  constructor
  · intro h ln hln hcon
    have := h ln hln
    rw [hcon.1, hcon.2] at this
    simp at this
  · intro h ln hln
    have := h ln hln
    cases hv : ln.valid
    · simp
    · cases htag : ln.tag == tag
      · simp [htag]
      · exact absurd ⟨hv, by simpa using htag⟩ this

/-- What a successful `find_way` scan guarantees about the found way. -/
theorem find_way_scan_some (lines : List Line) (tag way : Nat)
    (h : find_way_scan lines tag = some way) :
    way < lines.length ∧ (lines.getD way default).valid = true ∧
      (lines.getD way default).tag = tag := by
  unfold find_way_scan at h
  rw [List.findIdx?_eq_some_iff_getElem] at h
  obtain ⟨hlt, hp, _⟩ := h
  refine ⟨hlt, ?_, ?_⟩
  · rw [List.getD_eq_getElem?_getD, List.getElem?_eq_getElem hlt]
    simpa using And.left (by simpa using hp)
  · rw [List.getD_eq_getElem?_getD, List.getElem?_eq_getElem hlt]
    simpa using And.right (by simpa using hp)

/-! ### Pointwise behaviour of the recency update -/

/-- Aging a line never changes its `valid` flag. -/
theorem age_valid_valid (ln : Line) : (age_valid ln).valid = ln.valid := by
  cases hv : ln.valid <;> simp [age_valid, hv]

/-- Aging a line never changes its `dirty` flag. -/
theorem age_valid_dirty (ln : Line) : (age_valid ln).dirty = ln.dirty := by
  cases hv : ln.valid <;> simp [age_valid, hv]

/-- Aging a line never changes its `tag`. -/
theorem age_valid_tag (ln : Line) : (age_valid ln).tag = ln.tag := by
  cases hv : ln.valid <;> simp [age_valid, hv]

/-- Zeroing the recency of an aged line gives the zero-recency copy of the
original line, whether or not it was valid. -/
theorem age_valid_zeroed (ln : Line) :
    (⟨(age_valid ln).valid, (age_valid ln).dirty, (age_valid ln).tag, 0⟩ : Line) =
      ⟨ln.valid, ln.dirty, ln.tag, 0⟩ := by
  rw [age_valid_valid, age_valid_dirty, age_valid_tag]

theorem length_touch_as_mru_set (lines : List Line) (way : Nat) :
    (touch_as_mru_set lines way).length = lines.length := by
  simp [touch_as_mru_set]

theorem touch_as_mru_set_getD (lines : List Line) (way w : Nat)
    (hw : w < lines.length) :
    (touch_as_mru_set lines way).getD w default =
      if way = w then
        ⟨(lines.getD w default).valid, (lines.getD w default).dirty,
          (lines.getD w default).tag, 0⟩
      else age_valid (lines.getD w default) := by
  have h1 : lines[w]? = some (lines[w]) := List.getElem?_eq_getElem hw
  unfold touch_as_mru_set
  rw [List.getD_eq_getElem?_getD, List.getElem?_modify, List.getElem?_map, h1,
    List.getD_eq_getElem?_getD, h1]
  by_cases h : way = w
  · simp [h, age_valid_valid, age_valid_dirty, age_valid_tag]
  · simp [h]

theorem length_fill_line_set (lines : List Line) (way tag : Nat) (dirty : Bool) :
    (fill_line_set lines way tag dirty).length = lines.length := by
  simp [fill_line_set, length_touch_as_mru_set]

/-! ### The victim-selection scan -/

/-- If some way in the remaining scan is invalid, the scan stops at an
invalid way (at offset `w`). -/
theorem choose_victim_scan_invalid :
    ∀ (rest : List Line) (w victim max_age : Nat),
    (∃ i, i < rest.length ∧ (rest.getD i default).valid = false) →
    ∃ i, i < rest.length ∧ choose_victim_scan rest w victim max_age = w + i ∧
      (rest.getD i default).valid = false := by
  intro rest
  induction rest with
  | nil => intro w victim max_age h; obtain ⟨i, hi, _⟩ := h; simp at hi
  | cons ln rest ih =>
    intro w victim max_age h
    by_cases hv : ln.valid = false
    · exact ⟨0, by simp, by simp [choose_victim_scan, hv], by simpa using hv⟩
    · have hv' : ln.valid = true := by
        cases hln : ln.valid
        · exact absurd hln hv
        · rfl
      obtain ⟨i, hi, hinv⟩ := h
      have hrest : ∃ i, i < rest.length ∧ (rest.getD i default).valid = false := by
        cases i with
        | zero => simp at hinv; rw [hinv] at hv'; cases hv'
        | succ j => exact ⟨j, by simpa using hi, by simpa using hinv⟩
      by_cases hage : max_age ≤ ln.lru_age
      · obtain ⟨j, hj, hres, hjinv⟩ := ih (w + 1) w ln.lru_age hrest
        refine ⟨j + 1, by simpa using hj, ?_, by simpa using hjinv⟩
        simp only [choose_victim_scan, hv', if_pos hage]
        simp only [Bool.true_eq_false, if_false]
        rw [hres]; omega
      · obtain ⟨j, hj, hres, hjinv⟩ := ih (w + 1) victim max_age hrest
        refine ⟨j + 1, by simpa using hj, ?_, by simpa using hjinv⟩
        simp only [choose_victim_scan, hv', if_neg hage]
        simp only [Bool.true_eq_false, if_false]
        rw [hres]; omega

/-- When every remaining way is valid, the scan either keeps the incoming
victim (when every remaining age is below the incoming maximum) or lands on
a way of the remainder that dominates every remaining age, strictly
dominating all later ways (so it is the last way attaining the maximum). -/
theorem choose_victim_scan_all_valid :
    ∀ (rest : List Line) (w victim max_age : Nat),
    (∀ i, i < rest.length → (rest.getD i default).valid = true) →
    (choose_victim_scan rest w victim max_age = victim ∧
      ∀ i, i < rest.length → (rest.getD i default).lru_age < max_age) ∨
    (∃ i, i < rest.length ∧ choose_victim_scan rest w victim max_age = w + i ∧
      max_age ≤ (rest.getD i default).lru_age ∧
      (∀ j, j < rest.length → j ≤ i →
        (rest.getD j default).lru_age ≤ (rest.getD i default).lru_age) ∧
      (∀ j, j < rest.length → i < j →
        (rest.getD j default).lru_age < (rest.getD i default).lru_age)) := by
  intro rest
  induction rest with
  | nil =>
    intro w victim max_age _
    left
    exact ⟨rfl, fun i hi => by simp at hi⟩
  | cons ln rest ih =>
    intro w victim max_age hall
    have hv : ln.valid = true := by simpa using hall 0 (by simp)
    have hall' : ∀ i, i < rest.length → (rest.getD i default).valid = true := by
      intro i hi
      have := hall (i + 1) (by simp; omega)
      rwa [List.getD_cons_succ] at this
    by_cases hage : max_age ≤ ln.lru_age
    · have step : choose_victim_scan (ln :: rest) w victim max_age =
          choose_victim_scan rest (w + 1) w ln.lru_age := by
        simp only [choose_victim_scan, hv, Bool.true_eq_false, if_false, if_pos hage]
      rcases ih (w + 1) w ln.lru_age hall' with ⟨hres, hlt⟩ | ⟨i, hi, hres, hmax, hle, hgt⟩
      · right
        refine ⟨0, by simp, by rw [step, hres]; omega, ?_, ?_, ?_⟩
        · rwa [List.getD_cons_zero]
        · intro j hj hj0
          interval_cases j
          exact le_refl _
        · intro j hj h0j
          cases j with
          | zero => omega
          | succ k =>
            rw [List.getD_cons_succ, List.getD_cons_zero]
            exact hlt k (by simp at hj; omega)
      · right
        refine ⟨i + 1, by simp; omega, by rw [step, hres]; omega, ?_, ?_, ?_⟩
        · rw [List.getD_cons_succ]
          exact le_trans hage hmax
        · intro j hj hji
          cases j with
          | zero =>
            rw [List.getD_cons_zero, List.getD_cons_succ]
            exact hmax
          | succ k =>
            rw [List.getD_cons_succ, List.getD_cons_succ]
            exact hle k (by simp at hj; omega) (by omega)
        · intro j hj hij
          cases j with
          | zero => omega
          | succ k =>
            rw [List.getD_cons_succ, List.getD_cons_succ]
            exact hgt k (by simp at hj; omega) (by omega)
    · have step : choose_victim_scan (ln :: rest) w victim max_age =
          choose_victim_scan rest (w + 1) victim max_age := by
        simp only [choose_victim_scan, hv, Bool.true_eq_false, if_false, if_neg hage]
      rcases ih (w + 1) victim max_age hall' with ⟨hres, hlt⟩ | ⟨i, hi, hres, hmax, hle, hgt⟩
      · left
        refine ⟨by rw [step, hres], ?_⟩
        intro i hi
        cases i with
        | zero => rw [List.getD_cons_zero]; omega
        | succ k =>
          rw [List.getD_cons_succ]
          exact hlt k (by simp at hi; omega)
      · right
        refine ⟨i + 1, by simp; omega, by rw [step, hres]; omega, ?_, ?_, ?_⟩
        · rwa [List.getD_cons_succ]
        · intro j hj hji
          cases j with
          | zero =>
            rw [List.getD_cons_zero, List.getD_cons_succ]
            omega
          | succ k =>
            rw [List.getD_cons_succ, List.getD_cons_succ]
            exact hle k (by simp at hj; omega) (by omega)
        · intro j hj hij
          cases j with
          | zero => omega
          | succ k =>
            rw [List.getD_cons_succ, List.getD_cons_succ]
            exact hgt k (by simp at hj; omega) (by omega)

/-- C3, part 1: some way is invalid — the scan picks an invalid way. -/
theorem choose_victim_way_invalid (c : Cache) (set : Nat)
    (h : ∃ w, w < (c.lines_at set).length ∧
      ((c.lines_at set).getD w default).valid = false) :
    c.choose_victim_way set < (c.lines_at set).length ∧
      ((c.lines_at set).getD (c.choose_victim_way set) default).valid = false := by
  obtain ⟨i, hi, hres, hinv⟩ :=
    choose_victim_scan_invalid (c.lines_at set) 0 0 0 h
  unfold Cache.choose_victim_way
  rw [hres]
  rw [Nat.zero_add]
  exact ⟨hi, hinv⟩

/-- C3, part 2: all ways valid — the scan picks the way with the largest
recency, and among ties the one with the highest way index. -/
theorem choose_victim_way_lru (c : Cache) (set : Nat)
    (h0 : 0 < (c.lines_at set).length)
    (h : ∀ w, w < (c.lines_at set).length →
      ((c.lines_at set).getD w default).valid = true) :
    c.choose_victim_way set < (c.lines_at set).length ∧
      (∀ w, w < (c.lines_at set).length →
        ((c.lines_at set).getD w default).lru_age ≤
          ((c.lines_at set).getD (c.choose_victim_way set) default).lru_age) ∧
      (∀ w, w < (c.lines_at set).length →
        ((c.lines_at set).getD w default).lru_age =
          ((c.lines_at set).getD (c.choose_victim_way set) default).lru_age →
        w ≤ c.choose_victim_way set) := by
  rcases choose_victim_scan_all_valid (c.lines_at set) 0 0 0 h with
    ⟨_, hlt⟩ | ⟨i, hi, hres, _, hle, hgt⟩
  · exact absurd (hlt 0 h0) (by omega)
  · have hv : c.choose_victim_way set = i := by
      unfold Cache.choose_victim_way
      rw [hres]
      omega
    refine ⟨by omega, ?_, ?_⟩
    · intro w hw
      rw [hv]
      rcases le_or_lt w i with hwi | hiw
      · exact hle w hw hwi
      · exact le_of_lt (hgt w hw hiw)
    · intro w hw heq
      rw [hv] at heq ⊢
      by_contra hcon
      have := hgt w hw (by omega)
      omega

/-! ### Indexed reads through `List.modify` -/

theorem getD_modify_eq {α : Type} (f : α → α) (n : Nat) (l : List α) (d : α)
    (h : n < l.length) :
    (List.modify f n l).getD n d = f (l.getD n d) := by
  rw [List.getD_eq_getElem?_getD, List.getElem?_modify_eq,
    List.getElem?_eq_getElem h, List.getD_eq_getElem?_getD,
    List.getElem?_eq_getElem h]
  rfl

theorem getD_modify_ne {α : Type} (f : α → α) (m n : Nat) (l : List α) (d : α)
    (h : m ≠ n) :
    (List.modify f n l).getD m d = l.getD m d := by
  rw [List.getD_eq_getElem?_getD, List.getElem?_modify_ne f l (Ne.symm h),
    List.getD_eq_getElem?_getD]

/-- Reading the modified set of a per-set update. -/
theorem lines_at_modify_self (c : Cache) (f : List Line → List Line) (set : Nat)
    (h : set < c.sets_vec_.length) :
    Cache.lines_at { c with sets_vec_ := List.modify f set c.sets_vec_ } set =
      f (c.lines_at set) := by
  unfold Cache.lines_at
  exact getD_modify_eq f set c.sets_vec_ [] h

/-- Reading an unmodified set of a per-set update. -/
theorem lines_at_modify_other (c : Cache) (f : List Line → List Line) (set s : Nat)
    (h : s ≠ set) :
    Cache.lines_at { c with sets_vec_ := List.modify f set c.sets_vec_ } s =
      c.lines_at s := by
  unfold Cache.lines_at
  exact getD_modify_ne f s set c.sets_vec_ [] h

/-- C3: on every miss, victim selection prefers an invalid way when one
exists; otherwise it picks the way with the largest recency value, and ties
at the maximal recency resolve to the highest such way index (the way the
forward linear scan encounters last). -/
theorem claim_C3 (c : Cache) (set : Nat) (h0 : 0 < (c.lines_at set).length) :
    victim_selection_post c set := by
  constructor
  · exact fun h => choose_victim_way_invalid c set h
  · exact fun h => choose_victim_way_lru c set h0 h

/-- Witness for C3 at a concrete two-way set. -/
theorem claim_C3_witness :
    0 < (sampleCacheA.lines_at 0).length ∧ victim_selection_post sampleCacheA 0 :=
  ⟨by decide, claim_C3 sampleCacheA 0 (by decide)⟩

/-- Counterexample to C4 as stated: when a valid set-mate sits at recency
`2 ^ 32 - 1` (reachable, as `claim_C10_counterexample`'s run shows), the
source's `++ln.lru_age` on the `uint32_t` field wraps that way's recency to
`0`, not to "one greater than before": touching way 1 of `wrapState
(2 ^ 32 - 1) 2` leaves valid way 0 at recency `0 ≠ (2 ^ 32 - 1) + 1`. -/
theorem claim_C4_counterexample :
    ((wrapState (2 ^ 32 - 1) 2).line_at 0 0).valid = true ∧
    ¬ ((((wrapState (2 ^ 32 - 1) 2).touch_as_mru 0 1).line_at 0 0).lru_age =
        ((wrapState (2 ^ 32 - 1) 2).line_at 0 0).lru_age + 1) := by
  refine ⟨rfl, ?_⟩
  intro hcon
  have hcon2 : ((2 ^ 32 - 1 + 1) % 2 ^ 32 : Nat) = 2 ^ 32 - 1 + 1 := hcon
  omega

/-- C4 (amended): whenever a way becomes most-recently-used, its recency
becomes `0` (the minimum over the set), every other valid way's recency
grows by exactly one modulo `2 ^ 32` — the `uint32_t` increment wraps a
recency of `2 ^ 32 - 1` to `0`, refuting the bare "one greater than before"
of the claim, as `claim_C4_counterexample` shows — and invalid ways are
unchanged.  (`touch_as_mru` is invoked exactly on hits, via `Cache.access`,
and on post-eviction fills, via `fill_line`.) -/
theorem claim_C4 (c : Cache) (set way : Nat)
    (hset : set < c.sets_vec_.length) (hway : way < (c.lines_at set).length) :
    mru_update_post c set way := by
  have hTouch : (c.touch_as_mru set way).lines_at set =
      touch_as_mru_set (c.lines_at set) way := by
    unfold Cache.touch_as_mru
    exact lines_at_modify_self c _ set hset
  have hlen : (touch_as_mru_set (c.lines_at set) way).length =
      (c.lines_at set).length := length_touch_as_mru_set _ _
  have hway' : ((c.touch_as_mru set way).line_at set way).lru_age = 0 := by
    unfold Cache.line_at
    rw [hTouch, touch_as_mru_set_getD _ _ _ hway, if_pos rfl]
  refine ⟨hway', ?_, ?_⟩
  · intro w _
    rw [hway']
    exact Nat.zero_le _
  · intro w hw hne
    have hget : (touch_as_mru_set (c.lines_at set) way).getD w default =
        age_valid ((c.lines_at set).getD w default) := by
      rw [touch_as_mru_set_getD _ _ _ hw, if_neg (fun hcon => hne hcon.symm)]
    constructor
    · intro hv
      unfold Cache.line_at at hv ⊢
      rw [hTouch, hget]
      unfold age_valid
      rw [if_pos hv]
    · intro hv
      unfold Cache.line_at at hv ⊢
      rw [hTouch, hget]
      unfold age_valid
      rw [if_neg (by rw [hv]; exact Bool.false_ne_true)]

/-- Witness for C4: touching way 1 of the concrete two-way set. -/
theorem claim_C4_witness :
    0 < sampleCacheA.sets_vec_.length ∧ 1 < (sampleCacheA.lines_at 0).length ∧
      mru_update_post sampleCacheA 0 1 :=
  ⟨by decide, by decide, claim_C4 sampleCacheA 0 1 (by decide) (by decide)⟩

/-! ### Frame lemmas for the counter updates and the hit path -/

theorem count_total_sets_vec (c : Cache) (op : Op) :
    (c.count_total op).sets_vec_ = c.sets_vec_ := by
  cases op <;> simp [Cache.count_total]

theorem count_total_lines_at (c : Cache) (op : Op) (s : Nat) :
    (c.count_total op).lines_at s = c.lines_at s := by
  unfold Cache.lines_at
  rw [count_total_sets_vec]

theorem count_total_find_way (c : Cache) (op : Op) (s t : Nat) :
    (c.count_total op).find_way s t = c.find_way s t := by
  unfold Cache.find_way
  rw [count_total_lines_at]

/-- The source's `count_total` bumps only the `reads`/`writes` totals. -/
theorem count_total_stats_misc (c : Cache) (op : Op) :
    (c.count_total op).stats.read_misses = c.stats.read_misses ∧
    (c.count_total op).stats.write_misses = c.stats.write_misses ∧
    (c.count_total op).stats.writebacks = c.stats.writebacks ∧
    (c.count_total op).stats.memory_reads = c.stats.memory_reads ∧
    (c.count_total op).stats.memory_writes = c.stats.memory_writes ∧
    (c.count_total op).stats.pref_issued = c.stats.pref_issued ∧
    (c.count_total op).stats.pref_useful = c.stats.pref_useful ∧
    (c.count_total op).stats.pref_late = c.stats.pref_late := by
  cases op <;> simp [Cache.count_total]

theorem touch_as_mru_stats (c : Cache) (s w : Nat) :
    (c.touch_as_mru s w).stats = c.stats := rfl

theorem mark_dirty_stats (c : Cache) (s w : Nat) :
    (c.mark_dirty s w).stats = c.stats := rfl

theorem mark_dirty_sets_vec_length (c : Cache) (s w : Nat) :
    (c.mark_dirty s w).sets_vec_.length = c.sets_vec_.length := by
  simp [Cache.mark_dirty]

/-- Reading the accessed set after `mark_dirty`. -/
theorem mark_dirty_lines_at_self (c : Cache) (s w : Nat)
    (h : s < c.sets_vec_.length) :
    (c.mark_dirty s w).lines_at s =
      List.modify (fun ln => ⟨ln.valid, true, ln.tag, ln.lru_age⟩) w (c.lines_at s) := by
  unfold Cache.mark_dirty
  exact lines_at_modify_self c _ s h

/-- The hit path of `access`, written out. -/
theorem access_hit (c : Cache) (op : Op) (addr : Nat) (next : Option Cache)
    (way : Nat) (h : c.find_way (c.index_of addr) (c.tag_of addr) = some way) :
    c.access op addr next =
      (true,
        (if op = Op.Write then (c.count_total op).mark_dirty (c.index_of addr) way
         else c.count_total op).touch_as_mru (c.index_of addr) way,
        next) := by
  simp only [Cache.access, count_total_find_way, h]

/-- The miss path of `access`, written out. -/
theorem access_miss (c : Cache) (op : Op) (addr : Nat) (next : Option Cache)
    (h : c.find_way (c.index_of addr) (c.tag_of addr) = none) :
    c.access op addr next =
      (false,
        (Cache.allocate_on_miss ((c.count_total op).count_miss op) addr next
          (op == Op.Write)).1,
        (Cache.allocate_on_miss ((c.count_total op).count_miss op) addr next
          (op == Op.Write)).2) := by
  simp only [Cache.access, count_total_find_way, h]

/-- Reducing a branch on `Op.Write = Op.Write`. -/
theorem ite_write_write {mo : Type} (a b : mo) :
    (if Op.Write = Op.Write then a else b) = a := if_pos rfl

/-- Reducing a branch on `Op.Read = Op.Write`. -/
theorem ite_read_write {mo : Type} (a b : mo) :
    (if Op.Read = Op.Write then a else b) = b := if_neg (by simp)

/-- C1: `access` returns "hit" iff the indexed set holds a valid line with
the address's tag; a write hit sets `dirty` (a read hit leaves it alone),
the hit line becomes most-recently-used, nothing is forwarded, no miss
counter changes; and a miss returns "miss" no matter how it is serviced. -/
theorem claim_C1 (c : Cache) (op : Op) (addr : Nat) (next : Option Cache)
    (hset : c.index_of addr < c.sets_vec_.length) :
    hit_post c op addr next := by
  unfold hit_post
  cases hfw : c.find_way (c.index_of addr) (c.tag_of addr) with
  | none =>
    have hacc := access_miss c op addr next hfw
    have hnone : ∀ ln ∈ c.lines_at (c.index_of addr),
        ¬(ln.valid = true ∧ ln.tag = c.tag_of addr) := by
      apply (find_way_scan_none_iff _ _).mp
      unfold Cache.find_way at hfw
      exact hfw
    refine ⟨?_, ?_, ?_⟩
    · rw [hacc]
      constructor
      · intro h
        exact absurd h (by simp)
      · rintro ⟨ln, hmem, hp⟩
        exact absurd hp (hnone ln hmem)
    · intro way hway
      cases hway
    · intro _
      rw [hacc]
  | some way =>
    have hfw' : find_way_scan (c.lines_at (c.index_of addr)) (c.tag_of addr) =
        some way := by
      unfold Cache.find_way at hfw
      exact hfw
    obtain ⟨hwlt, hval, htag⟩ := find_way_scan_some _ _ _ hfw'
    have hacc := access_hit c op addr next way hfw
    have hgetelem : (c.lines_at (c.index_of addr)).getD way default =
        (c.lines_at (c.index_of addr)).get ⟨way, hwlt⟩ := by
      rw [List.getD_eq_getElem?_getD, List.getElem?_eq_getElem hwlt]
      rfl
    -- the state after the (possible) dirty marking
    have hlen1 : ((if op = Op.Write then (c.count_total op).mark_dirty (c.index_of addr) way
        else c.count_total op)).sets_vec_.length = c.sets_vec_.length := by
      cases op with
      | Read => rw [ite_read_write, count_total_sets_vec]
      | Write => rw [ite_write_write, mark_dirty_sets_vec_length, count_total_sets_vec]
    have hlines1 : ((if op = Op.Write then (c.count_total op).mark_dirty (c.index_of addr) way
        else c.count_total op)).lines_at (c.index_of addr) =
        if op = Op.Write then
          List.modify (fun ln => ⟨ln.valid, true, ln.tag, ln.lru_age⟩) way
            (c.lines_at (c.index_of addr))
        else c.lines_at (c.index_of addr) := by
      cases op with
      | Read => rw [ite_read_write, ite_read_write, count_total_lines_at]
      | Write =>
        rw [ite_write_write, ite_write_write,
          mark_dirty_lines_at_self _ _ _ (by rw [count_total_sets_vec]; exact hset),
          count_total_lines_at]
    have hlen1a : (((if op = Op.Write then (c.count_total op).mark_dirty (c.index_of addr) way
        else c.count_total op)).lines_at (c.index_of addr)).length =
        (c.lines_at (c.index_of addr)).length := by
      rw [hlines1]
      cases op with
      | Read => rw [ite_read_write]
      | Write => rw [ite_write_write, List.length_modify]
    have hlines2 : (((if op = Op.Write then (c.count_total op).mark_dirty (c.index_of addr) way
        else c.count_total op)).touch_as_mru (c.index_of addr) way).lines_at
          (c.index_of addr) =
        touch_as_mru_set (((if op = Op.Write then
            (c.count_total op).mark_dirty (c.index_of addr) way
          else c.count_total op)).lines_at (c.index_of addr)) way := by
      apply lines_at_modify_self
      rw [hlen1]
      exact hset
    have hv1 : (((if op = Op.Write then (c.count_total op).mark_dirty (c.index_of addr) way
        else c.count_total op)).lines_at (c.index_of addr)).getD way default =
        if op = Op.Write then
          ⟨((c.lines_at (c.index_of addr)).getD way default).valid, true,
            ((c.lines_at (c.index_of addr)).getD way default).tag,
            ((c.lines_at (c.index_of addr)).getD way default).lru_age⟩
        else (c.lines_at (c.index_of addr)).getD way default := by
      rw [hlines1]
      cases op with
      | Read => rw [ite_read_write, ite_read_write]
      | Write =>
        rw [ite_write_write, ite_write_write, getD_modify_eq _ _ _ _ hwlt]
    have htop : ((((if op = Op.Write then (c.count_total op).mark_dirty (c.index_of addr) way
        else c.count_total op)).touch_as_mru (c.index_of addr) way)).line_at
          (c.index_of addr) way =
        ⟨((c.lines_at (c.index_of addr)).getD way default).valid,
          (if op = Op.Write then true
            else ((c.lines_at (c.index_of addr)).getD way default).dirty),
          ((c.lines_at (c.index_of addr)).getD way default).tag, 0⟩ := by
      unfold Cache.line_at
      rw [hlines2, touch_as_mru_set_getD _ _ _ (by rw [hlen1a]; exact hwlt),
        if_pos rfl, hv1]
      cases op with
      | Read => rw [ite_read_write, ite_read_write]
      | Write => rw [ite_write_write, ite_write_write]
    refine ⟨?_, ?_, ?_⟩
    · rw [hacc]
      constructor
      · intro _
        refine ⟨(c.lines_at (c.index_of addr)).get ⟨way, hwlt⟩, List.get_mem _ _ _, ?_, ?_⟩
        · rw [← hgetelem]
          exact hval
        · rw [← hgetelem]
          exact htag
      · intro _
        rfl
    · intro way2 hway2
      have hww : way2 = way := by
        injection hway2 with h
        exact h.symm
      subst hww
      have hstats : ((((if op = Op.Write then
          (c.count_total op).mark_dirty (c.index_of addr) way2
          else c.count_total op)).touch_as_mru (c.index_of addr) way2)).stats =
          (c.count_total op).stats := by
        cases op with
        | Read => rw [ite_read_write, touch_as_mru_stats]
        | Write => rw [ite_write_write, touch_as_mru_stats, mark_dirty_stats]
      obtain ⟨h1, h2, h3, h4, h5, _, _, _⟩ := count_total_stats_misc c op
      have hstats2 : (c.access op addr next).2.1.stats = (c.count_total op).stats := by
        rw [hacc]
        exact hstats
      have hline : (c.access op addr next).2.1.line_at (c.index_of addr) way2 =
          ⟨((c.lines_at (c.index_of addr)).getD way2 default).valid,
            (if op = Op.Write then true
              else ((c.lines_at (c.index_of addr)).getD way2 default).dirty),
            ((c.lines_at (c.index_of addr)).getD way2 default).tag, 0⟩ := by
        rw [hacc]
        exact htop
      refine ⟨by rw [hacc], ?_, ?_, ?_, ?_, ?_, ?_, ?_, ?_, ?_, ?_⟩
      · rw [hstats2]
        exact h1
      · rw [hstats2]
        exact h2
      · rw [hstats2]
        exact h3
      · rw [hstats2]
        exact h4
      · rw [hstats2]
        exact h5
      · rw [hline]
        rfl
      · rw [hline]
        rfl
      · rw [hline]
        rfl
      · rw [hline]
      · intro w hw
        rw [hline]
        exact Nat.zero_le _
    · intro hcon
      cases hcon

/-- Witness for C1: a write access that hits way 1 of the concrete set. -/
theorem claim_C1_witness :
    sampleCacheA.index_of 80 < sampleCacheA.sets_vec_.length ∧
      hit_post sampleCacheA Op.Write 80 none :=
  ⟨by decide, claim_C1 sampleCacheA Op.Write 80 none (by decide)⟩

/-! ### The miss-path install -/

theorem fill_line_set_getD_self (lines : List Line) (way tag : Nat) (d : Bool)
    (h : way < lines.length) :
    (fill_line_set lines way tag d).getD way default = ⟨true, d, tag, 0⟩ := by
  unfold fill_line_set
  rw [touch_as_mru_set_getD _ _ _ (by rw [List.length_modify]; exact h), if_pos rfl,
    getD_modify_eq _ _ _ _ h]

theorem fill_line_set_getD_other (lines : List Line) (way tag : Nat) (d : Bool)
    (w : Nat) (hw : w < lines.length) (hne : w ≠ way) :
    (fill_line_set lines way tag d).getD w default =
      age_valid (lines.getD w default) := by
  unfold fill_line_set
  rw [touch_as_mru_set_getD _ _ _ (by rw [List.length_modify]; exact hw),
    if_neg (fun h => hne h.symm), getD_modify_ne _ _ _ _ _ hne]

/-- The line installed by `fill_line` is valid, carries the new tag and
dirty flag, and has recency `0`. -/
theorem fill_line_line_at (x : Cache) (set way tag : Nat) (d : Bool)
    (hs : set < x.sets_vec_.length) (hw : way < (x.lines_at set).length) :
    (x.fill_line set way tag d).line_at set way = ⟨true, d, tag, 0⟩ := by
  unfold Cache.line_at Cache.fill_line
  rw [lines_at_modify_self x _ set hs]
  exact fill_line_set_getD_self _ _ _ _ hw

/-- The victim way is always inside the (nonempty) set. -/
theorem choose_victim_way_lt (c : Cache) (set : Nat)
    (h0 : 0 < (c.lines_at set).length) :
    c.choose_victim_way set < (c.lines_at set).length := by
  by_cases h : ∃ w, w < (c.lines_at set).length ∧
      ((c.lines_at set).getD w default).valid = false
  · exact (choose_victim_way_invalid c set h).1
  · have hall : ∀ w, w < (c.lines_at set).length →
        ((c.lines_at set).getD w default).valid = true := by
      intro w hw
      by_contra hcon
      exact h ⟨w, hw, by
        cases hv : ((c.lines_at set).getD w default).valid
        · rfl
        · exact absurd hv hcon⟩
    exact (choose_victim_way_lru c set h0 hall).1

/-- The two miss counters only touch `stats`. -/
theorem count_state_eq (c : Cache) (op : Op) :
    (c.count_total op).count_miss op =
      { c with stats := ((c.count_total op).count_miss op).stats } := by
  cases op <;> simp [Cache.count_total, Cache.count_miss]

/-- The source's `allocate_on_miss` installs the new line into the victim way, whatever
the next level is and however it services the forwarded fill. -/
theorem allocate_on_miss_installs (c : Cache) (addr : Nat) (next : Option Cache)
    (d : Bool) (hset : c.index_of addr < c.sets_vec_.length)
    (hvic : c.choose_victim_way (c.index_of addr) <
      (c.lines_at (c.index_of addr)).length) :
    ((c.allocate_on_miss addr next d).1).line_at (c.index_of addr)
      (c.choose_victim_way (c.index_of addr)) = ⟨true, d, c.tag_of addr, 0⟩ := by
  cases next with
  | none =>
    by_cases hP : ((c.line_at (c.index_of addr)
        (c.choose_victim_way (c.index_of addr))).valid &&
        (c.line_at (c.index_of addr)
          (c.choose_victim_way (c.index_of addr))).dirty) = true
    · simp only [Cache.allocate_on_miss, Cache.allocate_on_miss1, Cache.writeback_down1,
        hP, if_true]
      exact fill_line_line_at _ _ _ _ _ hset hvic
    · simp only [Cache.allocate_on_miss, Cache.allocate_on_miss1, Cache.writeback_down1,
        hP, if_false]
      exact fill_line_line_at _ _ _ _ _ hset hvic
  | some nl =>
    by_cases hP : ((c.line_at (c.index_of addr)
        (c.choose_victim_way (c.index_of addr))).valid &&
        (c.line_at (c.index_of addr)
          (c.choose_victim_way (c.index_of addr))).dirty) = true
    · simp only [Cache.allocate_on_miss, Cache.writeback_down, hP, if_true]
      exact fill_line_line_at _ _ _ _ _ hset hvic
    · simp only [Cache.allocate_on_miss, Cache.writeback_down, hP, if_false]
      exact fill_line_line_at _ _ _ _ _ hset hvic

/-- C5: every miss installs a valid line with the requesting tag into the
victim way, dirty exactly when the original operation was a write; the
installed line becomes most-recently-used; all regardless of how the
forwarded fill was serviced. -/
theorem claim_C5 (c : Cache) (op : Op) (addr : Nat) (next : Option Cache)
    (hset : c.index_of addr < c.sets_vec_.length)
    (hassoc : 0 < (c.lines_at (c.index_of addr)).length)
    (hmiss : c.find_way (c.index_of addr) (c.tag_of addr) = none) :
    install_post c op addr next := by
  have hacc := access_miss c op addr next hmiss
  have hvic := choose_victim_way_lt c (c.index_of addr) hassoc
  have hmain : ((c.access op addr next).2.1).line_at (c.index_of addr)
      (c.choose_victim_way (c.index_of addr)) =
      ⟨true, op == Op.Write, c.tag_of addr, 0⟩ := by
    rw [hacc, count_state_eq]
    exact allocate_on_miss_installs
      { c with stats := ((c.count_total op).count_miss op).stats } addr next
      (op == Op.Write) hset hvic
  refine ⟨hmain, fun w => ?_⟩
  rw [hmain]
  exact Nat.zero_le _

/-- Witness for C5: a read miss into the concrete set with an invalid way. -/
theorem claim_C5_witness :
    sampleCacheB.index_of 0 < sampleCacheB.sets_vec_.length ∧
      0 < (sampleCacheB.lines_at (sampleCacheB.index_of 0)).length ∧
      sampleCacheB.find_way (sampleCacheB.index_of 0) (sampleCacheB.tag_of 0) = none ∧
      install_post sampleCacheB Op.Read 0 none :=
  ⟨by decide, by decide, by decide,
    claim_C5 sampleCacheB Op.Read 0 none (by decide) (by decide) (by decide)⟩

/-! ### The writeback path -/

/-- Doubling distributes over bitwise or. -/
theorem two_mul_or_two_mul (x y : Nat) : 2 * x ||| 2 * y = 2 * (x ||| y) := by
  have h := Nat.lor_bit false x false y
  simpa [Nat.bit_false] using h

/-- A common left shift distributes over bitwise or. -/
theorem shiftLeft_or_shiftLeft (x y : Nat) :
    ∀ k, (x <<< k) ||| (y <<< k) = (x ||| y) <<< k := by
  intro k
  induction k generalizing x y with
  | zero => simp
  | succ k ih =>
    rw [Nat.shiftLeft_succ_inside, Nat.shiftLeft_succ_inside, Nat.shiftLeft_succ_inside,
      ih (2 * x) (2 * y), two_mul_or_two_mul]

/-- Under the bounds that hold for tags and set indices decoded from 32-bit
addresses, the reconstructed victim address is exactly
`(tag << (idx_bits + off_bits)) | (set << off_bits)` and its offset bits
are zero. -/
theorem victim_block_addr_spec (tag set idx off : Nat)
    (htag : tag < 2 ^ (32 - (idx + off))) (hio : idx + off ≤ 32)
    (hsetb : set < 2 ^ idx) :
    victim_block_addr_of tag set idx off =
      (tag <<< (idx + off)) ||| (set <<< off) ∧
    victim_block_addr_of tag set idx off % 2 ^ off = 0 := by
  have hpow : (2 : Nat) ^ (32 - (idx + off)) * 2 ^ (idx + off) = 2 ^ 32 := by
    rw [← pow_add, Nat.sub_add_cancel hio]
  have ha32 : tag <<< (idx + off) < 2 ^ 32 := by
    rw [Nat.shiftLeft_eq]
    calc tag * 2 ^ (idx + off)
        < 2 ^ (32 - (idx + off)) * 2 ^ (idx + off) :=
          Nat.mul_lt_mul_of_lt_of_le htag (le_refl _) (Nat.pos_pow_of_pos _ (by omega))
      _ = 2 ^ 32 := hpow
  have ha64 : tag <<< (idx + off) < 2 ^ 64 :=
    lt_of_lt_of_le ha32 (Nat.pow_le_pow_right (by omega) (by omega))
  have hs32 : set < 2 ^ 32 :=
    lt_of_lt_of_le hsetb (Nat.pow_le_pow_right (by omega) (by omega))
  have hb32 : set <<< off < 2 ^ 32 := by
    rw [Nat.shiftLeft_eq]
    calc set * 2 ^ off < 2 ^ idx * 2 ^ off :=
          Nat.mul_lt_mul_of_lt_of_le hsetb (le_refl _) (Nat.pos_pow_of_pos _ (by omega))
      _ = 2 ^ (idx + off) := by rw [← pow_add]
      _ ≤ 2 ^ 32 := Nat.pow_le_pow_right (by omega) hio
  have hval : victim_block_addr_of tag set idx off =
      (tag <<< (idx + off)) ||| (set <<< off) := by
    unfold victim_block_addr_of
    rw [Nat.mod_eq_of_lt ha64, Nat.mod_eq_of_lt hs32, Nat.mod_eq_of_lt hb32,
      Nat.mod_eq_of_lt (Nat.or_lt_two_pow ha32 hb32)]
  refine ⟨hval, ?_⟩
  rw [hval]
  have hsplit : tag <<< (idx + off) = (tag <<< idx) <<< off :=
    Nat.shiftLeft_add tag idx off
  rw [hsplit, shiftLeft_or_shiftLeft, Nat.shiftLeft_eq]
  exact Nat.mul_mod_left _ _

/-- C2: a valid dirty victim is written back exactly once — one
`writebacks` increment, and either exactly one synthetic write into the
next level at the reconstructed block-aligned address (forwarded no
further) issued strictly before the fill, or one `memory_writes` increment
— while a clean or invalid victim triggers neither; and under the bounds
that hold for tags and sets decoded from 32-bit addresses the
reconstructed address is `(tag << (index_bits+offset_bits)) |
(set << offset_bits)` with zero offset bits. -/
theorem claim_C2 (c : Cache) (addr : Nat) (next : Option Cache) (d : Bool)
    (htag : (c.line_at (c.index_of addr) (c.choose_victim_way (c.index_of addr))).tag <
      2 ^ (32 - (c.idx_bits_ + c.off_bits_)))
    (hio : c.idx_bits_ + c.off_bits_ ≤ 32)
    (hsetb : c.index_of addr < 2 ^ c.idx_bits_) :
    writeback_post c addr next d ∧
    victim_block_addr_of
        (c.line_at (c.index_of addr) (c.choose_victim_way (c.index_of addr))).tag
        (c.index_of addr) c.idx_bits_ c.off_bits_ =
      ((c.line_at (c.index_of addr) (c.choose_victim_way (c.index_of addr))).tag <<<
        (c.idx_bits_ + c.off_bits_)) ||| ((c.index_of addr) <<< c.off_bits_) ∧
    victim_block_addr_of
        (c.line_at (c.index_of addr) (c.choose_victim_way (c.index_of addr))).tag
        (c.index_of addr) c.idx_bits_ c.off_bits_ % 2 ^ c.off_bits_ = 0 := by
  obtain ⟨hval, hzero⟩ := victim_block_addr_spec _ _ _ _ htag hio hsetb
  refine ⟨⟨?_, ?_⟩, hval, hzero⟩
  · rintro ⟨hv, hd⟩
    have hPb : ((c.line_at (c.index_of addr) (c.choose_victim_way (c.index_of addr))).valid &&
        (c.line_at (c.index_of addr) (c.choose_victim_way (c.index_of addr))).dirty) = true := by
      rw [hv, hd]
      rfl
    cases next with
    | none =>
      refine ⟨?_, ?_, ?_⟩
      · simp [Cache.allocate_on_miss, Cache.allocate_on_miss1, Cache.writeback_down1,
          Cache.fill_line, hPb]
      · intro nl h
        exact Option.noConfusion h
      · intro _
        simp [Cache.allocate_on_miss, Cache.allocate_on_miss1, Cache.writeback_down1,
          Cache.fill_line, hPb]
    | some nl =>
      refine ⟨?_, ?_, ?_⟩
      · simp [Cache.allocate_on_miss, Cache.writeback_down, Cache.fill_line, hPb]
      · intro nl2 h
        injection h with hh
        subst hh
        refine ⟨?_, ?_⟩
        · simp [Cache.allocate_on_miss, Cache.writeback_down, Cache.fill_line, hPb]
        · simp [Cache.allocate_on_miss, Cache.writeback_down, Cache.fill_line,
            Cache.block_aligned, hPb]
      · intro h
        exact Option.noConfusion h
  · intro hnd
    have hPb : ((c.line_at (c.index_of addr) (c.choose_victim_way (c.index_of addr))).valid &&
        (c.line_at (c.index_of addr) (c.choose_victim_way (c.index_of addr))).dirty) = false := by
      cases hvv : (c.line_at (c.index_of addr) (c.choose_victim_way (c.index_of addr))).valid
      · simp
      · cases hdd : (c.line_at (c.index_of addr) (c.choose_victim_way (c.index_of addr))).dirty
        · simp
        · exact absurd ⟨hvv, hdd⟩ hnd
    cases next with
    | none =>
      refine ⟨?_, ?_, ?_⟩
      · simp [Cache.allocate_on_miss, Cache.allocate_on_miss1, Cache.fill_line, hPb]
      · simp [Cache.allocate_on_miss, Cache.allocate_on_miss1, Cache.fill_line, hPb]
      · intro nl h
        exact Option.noConfusion h
    | some nl =>
      refine ⟨?_, ?_, ?_⟩
      · simp [Cache.allocate_on_miss, Cache.fill_line, hPb]
      · simp [Cache.allocate_on_miss, Cache.fill_line, hPb]
      · intro nl2 h
        injection h with hh
        subst hh
        simp [Cache.allocate_on_miss, Cache.fill_line, Cache.block_aligned, hPb]

/-- Witness for C2: evicting the valid dirty LRU way of the concrete set. -/
theorem claim_C2_witness :
    (sampleCacheA.line_at (sampleCacheA.index_of 0)
        (sampleCacheA.choose_victim_way (sampleCacheA.index_of 0))).tag <
      2 ^ (32 - (sampleCacheA.idx_bits_ + sampleCacheA.off_bits_)) ∧
    sampleCacheA.idx_bits_ + sampleCacheA.off_bits_ ≤ 32 ∧
    sampleCacheA.index_of 0 < 2 ^ sampleCacheA.idx_bits_ ∧
    (writeback_post sampleCacheA 0 none false ∧
      victim_block_addr_of
          (sampleCacheA.line_at (sampleCacheA.index_of 0)
            (sampleCacheA.choose_victim_way (sampleCacheA.index_of 0))).tag
          (sampleCacheA.index_of 0) sampleCacheA.idx_bits_ sampleCacheA.off_bits_ =
        ((sampleCacheA.line_at (sampleCacheA.index_of 0)
            (sampleCacheA.choose_victim_way (sampleCacheA.index_of 0))).tag <<<
          (sampleCacheA.idx_bits_ + sampleCacheA.off_bits_)) |||
          ((sampleCacheA.index_of 0) <<< sampleCacheA.off_bits_) ∧
      victim_block_addr_of
          (sampleCacheA.line_at (sampleCacheA.index_of 0)
            (sampleCacheA.choose_victim_way (sampleCacheA.index_of 0))).tag
          (sampleCacheA.index_of 0) sampleCacheA.idx_bits_ sampleCacheA.off_bits_ %
        2 ^ sampleCacheA.off_bits_ = 0) :=
  ⟨by decide, by decide, by decide,
    claim_C2 sampleCacheA 0 none false (by decide) (by decide) (by decide)⟩

/-! ### Counter accounting over a run -/

/-- The stats after a hit are those after the total-counter bump alone. -/
theorem access_hit_stats (c : Cache) (op : Op) (addr : Nat) (next : Option Cache)
    (way : Nat) (h : c.find_way (c.index_of addr) (c.tag_of addr) = some way) :
    ((c.access op addr next).2.1).stats = (c.count_total op).stats := by
  rw [access_hit c op addr next way h]
  cases op with
  | Read => rw [ite_read_write, touch_as_mru_stats]
  | Write => rw [ite_write_write, touch_as_mru_stats, mark_dirty_stats]

/-- What `allocate_on_miss` does to the calling cache's own counters. -/
theorem allocate_on_miss_stats (c : Cache) (addr : Nat) (next : Option Cache)
    (d : Bool) :
    ((c.allocate_on_miss addr next d).1).stats.reads = c.stats.reads ∧
    ((c.allocate_on_miss addr next d).1).stats.writes = c.stats.writes ∧
    ((c.allocate_on_miss addr next d).1).stats.read_misses = c.stats.read_misses ∧
    ((c.allocate_on_miss addr next d).1).stats.write_misses = c.stats.write_misses ∧
    c.stats.writebacks ≤ ((c.allocate_on_miss addr next d).1).stats.writebacks ∧
    c.stats.memory_reads ≤ ((c.allocate_on_miss addr next d).1).stats.memory_reads ∧
    c.stats.memory_writes ≤ ((c.allocate_on_miss addr next d).1).stats.memory_writes ∧
    ((c.allocate_on_miss addr next d).1).stats.pref_issued = c.stats.pref_issued ∧
    ((c.allocate_on_miss addr next d).1).stats.pref_useful = c.stats.pref_useful ∧
    ((c.allocate_on_miss addr next d).1).stats.pref_late = c.stats.pref_late := by
  cases next with
  | none =>
    by_cases hPb : ((c.line_at (c.index_of addr)
        (c.choose_victim_way (c.index_of addr))).valid &&
        (c.line_at (c.index_of addr)
          (c.choose_victim_way (c.index_of addr))).dirty) = true
    · simp [Cache.allocate_on_miss, Cache.allocate_on_miss1, Cache.writeback_down1,
        Cache.fill_line, hPb]
    · simp [Cache.allocate_on_miss, Cache.allocate_on_miss1, Cache.writeback_down1,
        Cache.fill_line, hPb]
  | some nl =>
    by_cases hPb : ((c.line_at (c.index_of addr)
        (c.choose_victim_way (c.index_of addr))).valid &&
        (c.line_at (c.index_of addr)
          (c.choose_victim_way (c.index_of addr))).dirty) = true
    · simp [Cache.allocate_on_miss, Cache.writeback_down, Cache.fill_line, hPb]
    · simp [Cache.allocate_on_miss, Cache.writeback_down, Cache.fill_line, hPb]

/-- One `access` call: the totals grow by exactly one, misses stay below
totals, every counter is monotone, prefetch counters are untouched. -/
theorem access_self_stats (c : Cache) (op : Op) (addr : Nat) (next : Option Cache) :
    ((c.access op addr next).2.1).stats.reads + ((c.access op addr next).2.1).stats.writes =
      c.stats.reads + c.stats.writes + 1 ∧
    (c.stats.read_misses ≤ c.stats.reads →
      ((c.access op addr next).2.1).stats.read_misses ≤
        ((c.access op addr next).2.1).stats.reads) ∧
    (c.stats.write_misses ≤ c.stats.writes →
      ((c.access op addr next).2.1).stats.write_misses ≤
        ((c.access op addr next).2.1).stats.writes) ∧
    StatsLE c.stats ((c.access op addr next).2.1).stats ∧
    ((c.access op addr next).2.1).stats.pref_issued = c.stats.pref_issued ∧
    ((c.access op addr next).2.1).stats.pref_useful = c.stats.pref_useful ∧
    ((c.access op addr next).2.1).stats.pref_late = c.stats.pref_late := by
  unfold StatsLE
  cases hfw : c.find_way (c.index_of addr) (c.tag_of addr) with
  | some way =>
    have hs := access_hit_stats c op addr next way hfw
    rw [hs]
    cases op <;> simp [Cache.count_total] <;> omega
  | none =>
    have hacc := access_miss c op addr next hfw
    have hs : ((c.access op addr next).2.1) =
        (Cache.allocate_on_miss ((c.count_total op).count_miss op) addr next
          (op == Op.Write)).1 := by
      rw [hacc]
    rw [hs]
    obtain ⟨a1, a2, a3, a4, a5, a6, a7, a8, a9, a10⟩ :=
      allocate_on_miss_stats ((c.count_total op).count_miss op) addr next (op == Op.Write)
    cases op <;>
      simp [Cache.count_total, Cache.count_miss] at a1 a2 a3 a4 a5 a6 a7 a8 a9 a10 ⊢ <;>
      omega

theorem run_append (c : Cache) (l1 l2 : List (Op × Nat × Option Cache)) :
    Cache.run c (l1 ++ l2) = Cache.run (Cache.run c l1) l2 := by
  induction l1 generalizing c with
  | nil => rfl
  | cons e rest ih =>
    obtain ⟨op, addr, nl⟩ := e
    simp only [List.cons_append, Cache.run]
    exact ih _

theorem run_totals (tr : List (Op × Nat × Option Cache)) :
    ∀ c : Cache, (Cache.run c tr).stats.reads + (Cache.run c tr).stats.writes =
      c.stats.reads + c.stats.writes + tr.length := by
  induction tr with
  | nil => intro c; simp [Cache.run]
  | cons e rest ih =>
    intro c
    obtain ⟨op, addr, nl⟩ := e
    have hstep := (access_self_stats c op addr nl).1
    simp only [Cache.run]
    rw [ih ((c.access op addr nl).2.1)]
    simp only [List.length_cons]
    omega

theorem run_miss_le (tr : List (Op × Nat × Option Cache)) :
    ∀ c : Cache,
      c.stats.read_misses ≤ c.stats.reads →
      c.stats.write_misses ≤ c.stats.writes →
      (Cache.run c tr).stats.read_misses ≤ (Cache.run c tr).stats.reads ∧
      (Cache.run c tr).stats.write_misses ≤ (Cache.run c tr).stats.writes := by
  induction tr with
  | nil => intro c h1 h2; exact ⟨h1, h2⟩
  | cons e rest ih =>
    intro c h1 h2
    obtain ⟨op, addr, nl⟩ := e
    obtain ⟨_, hr, hw, _, _, _, _⟩ := access_self_stats c op addr nl
    simp only [Cache.run]
    exact ih _ (hr h1) (hw h2)

theorem run_prefs (tr : List (Op × Nat × Option Cache)) :
    ∀ c : Cache,
      (Cache.run c tr).stats.pref_issued = c.stats.pref_issued ∧
      (Cache.run c tr).stats.pref_useful = c.stats.pref_useful ∧
      (Cache.run c tr).stats.pref_late = c.stats.pref_late := by
  induction tr with
  | nil => intro c; exact ⟨rfl, rfl, rfl⟩
  | cons e rest ih =>
    intro c
    obtain ⟨op, addr, nl⟩ := e
    obtain ⟨_, _, _, _, p1, p2, p3⟩ := access_self_stats c op addr nl
    obtain ⟨q1, q2, q3⟩ := ih ((c.access op addr nl).2.1)
    simp only [Cache.run]
    exact ⟨q1.trans p1, q2.trans p2, q3.trans p3⟩

theorem statsLE_trans {a b c : AccessStats} (h1 : StatsLE a b) (h2 : StatsLE b c) :
    StatsLE a c := by
  unfold StatsLE at h1 h2 ⊢
  omega

theorem run_statsLE (tr : List (Op × Nat × Option Cache)) :
    ∀ c : Cache, StatsLE c.stats (Cache.run c tr).stats := by
  induction tr with
  | nil =>
    intro c
    simp only [Cache.run]
    unfold StatsLE
    omega
  | cons e rest ih =>
    intro c
    obtain ⟨op, addr, nl⟩ := e
    obtain ⟨_, _, _, hle, _, _, _⟩ := access_self_stats c op addr nl
    simp only [Cache.run]
    exact statsLE_trans hle (ih _)

/-- C6: after any run of `N` accesses from construction,
`reads + writes = N`, misses never exceed totals, the prefetch counters
stay zero, and every counter is monotone along the run. -/
theorem claim_C6 (cfg : CacheConfig) (tr : List (Op × Nat × Option Cache)) :
    trace_stats_post cfg tr := by
  unfold trace_stats_post
  have h0r : (Cache.construct cfg).stats.reads = 0 := rfl
  have h0w : (Cache.construct cfg).stats.writes = 0 := rfl
  refine ⟨?_, ?_, ?_, ?_, ?_, ?_, ?_⟩
  · have h := run_totals tr (Cache.construct cfg)
    rw [h0r, h0w] at h
    omega
  · exact (run_miss_le tr (Cache.construct cfg) (le_of_eq rfl) (le_of_eq rfl)).1
  · exact (run_miss_le tr (Cache.construct cfg) (le_of_eq rfl) (le_of_eq rfl)).2
  · exact (run_prefs tr (Cache.construct cfg)).1
  · exact (run_prefs tr (Cache.construct cfg)).2.1
  · exact (run_prefs tr (Cache.construct cfg)).2.2
  · intro i j hij
    have h1 : (tr.take j).take i = tr.take i := by
      rw [List.take_take, Nat.min_eq_left hij]
    have h2 : Cache.run (Cache.construct cfg) (tr.take j) =
        Cache.run (Cache.run (Cache.construct cfg) (tr.take i)) ((tr.take j).drop i) := by
      conv_lhs => rw [← List.take_append_drop i (tr.take j)]
      rw [run_append, h1]
    rw [h2]
    exact run_statsLE _ _

/-- Witness for C6 at a concrete configuration and trace. -/
theorem claim_C6_witness :
    trace_stats_post ⟨32, 1, 32⟩ [(Op.Write, 0, none), (Op.Read, 32, none)] :=
  claim_C6 ⟨32, 1, 32⟩ [(Op.Write, 0, none), (Op.Read, 32, none)]

/-! ### The shape of the line storage after one access -/

/-- Reading any set of a per-set update: untouched, or the update applied. -/
theorem lines_at_modify_cases (c : Cache) (f : List Line → List Line) (set s : Nat) :
    Cache.lines_at { c with sets_vec_ := List.modify f set c.sets_vec_ } s =
        c.lines_at s ∨
      (s = set ∧ s < c.sets_vec_.length ∧
        Cache.lines_at { c with sets_vec_ := List.modify f set c.sets_vec_ } s =
          f (c.lines_at s)) := by
  by_cases h1 : s = set
  · subst h1
    by_cases h2 : s < c.sets_vec_.length
    · exact Or.inr ⟨rfl, h2, lines_at_modify_self c f s h2⟩
    · left
      unfold Cache.lines_at
      have hnone : c.sets_vec_[s]? = none :=
        List.getElem?_eq_none (by omega)
      rw [List.getD_eq_getElem?_getD, List.getElem?_modify, hnone,
        List.getD_eq_getElem?_getD, hnone]
      rfl
  · exact Or.inl (lines_at_modify_other c f set s h1)

/-- Per-set cases for `touch_as_mru`. -/
theorem touch_lines_cases (x : Cache) (way s set : Nat) :
    (x.touch_as_mru set way).lines_at s = x.lines_at s ∨
      (s = set ∧ s < x.sets_vec_.length ∧
        (x.touch_as_mru set way).lines_at s = touch_as_mru_set (x.lines_at s) way) :=
  lines_at_modify_cases x _ set s

/-- Per-set cases for `mark_dirty`. -/
theorem mark_dirty_lines_cases (x : Cache) (way s set : Nat) :
    (x.mark_dirty set way).lines_at s = x.lines_at s ∨
      (s = set ∧ s < x.sets_vec_.length ∧
        (x.mark_dirty set way).lines_at s =
          List.modify (fun ln => ⟨ln.valid, true, ln.tag, ln.lru_age⟩) way
            (x.lines_at s)) :=
  lines_at_modify_cases x _ set s

/-- Per-set cases for `fill_line`. -/
theorem fill_lines_cases (x : Cache) (set way tag : Nat) (d : Bool) (s : Nat) :
    (x.fill_line set way tag d).lines_at s = x.lines_at s ∨
      (s = set ∧ s < x.sets_vec_.length ∧
        (x.fill_line set way tag d).lines_at s =
          fill_line_set (x.lines_at s) way tag d) :=
  lines_at_modify_cases x _ set s

/-- A set index beyond the storage reads as the empty set. -/
theorem lines_at_eq_nil (x : Cache) (s : Nat) (h : x.sets_vec_.length ≤ s) :
    x.lines_at s = [] := by
  unfold Cache.lines_at
  rw [List.getD_eq_getElem?_getD, List.getElem?_eq_none (by omega)]
  rfl

theorem touch_as_mru_sets_vec_length (x : Cache) (set way : Nat) :
    (x.touch_as_mru set way).sets_vec_.length = x.sets_vec_.length := by
  simp [Cache.touch_as_mru]

theorem fill_line_sets_vec_length (x : Cache) (set way tag : Nat) (d : Bool) :
    (x.fill_line set way tag d).sets_vec_.length = x.sets_vec_.length := by
  simp [Cache.fill_line]

/-- The hit path of `access` on a read, as a state equation. -/
theorem access_hit_read (c : Cache) (addr : Nat) (next : Option Cache) (way : Nat)
    (hfw : c.find_way (c.index_of addr) (c.tag_of addr) = some way) :
    (c.access Op.Read addr next).2.1 =
      (c.count_total Op.Read).touch_as_mru (c.index_of addr) way := by
  rw [access_hit c Op.Read addr next way hfw, ite_read_write]

/-- The hit path of `access` on a write, as a state equation. -/
theorem access_hit_write (c : Cache) (addr : Nat) (next : Option Cache) (way : Nat)
    (hfw : c.find_way (c.index_of addr) (c.tag_of addr) = some way) :
    (c.access Op.Write addr next).2.1 =
      ((c.count_total Op.Write).mark_dirty (c.index_of addr) way).touch_as_mru
        (c.index_of addr) way := by
  rw [access_hit c Op.Write addr next way hfw, ite_write_write]

/-- After a hit, every set is untouched except the accessed one, which is
touched as MRU after the optional dirty marking of the hit way. -/
theorem access_hit_lines (c : Cache) (op : Op) (addr : Nat) (next : Option Cache)
    (way : Nat) (hfw : c.find_way (c.index_of addr) (c.tag_of addr) = some way)
    (s : Nat) :
    ((c.access op addr next).2.1).lines_at s = c.lines_at s ∨
      (s = c.index_of addr ∧ s < c.sets_vec_.length ∧
        ((c.access op addr next).2.1).lines_at s =
          touch_as_mru_set
            (if op = Op.Write then
              List.modify (fun ln => ⟨ln.valid, true, ln.tag, ln.lru_age⟩) way
                (c.lines_at s)
            else c.lines_at s) way) := by
  by_cases h1 : s = c.index_of addr
  · by_cases h2 : s < c.sets_vec_.length
    · right
      refine ⟨h1, h2, ?_⟩
      subst h1
      cases op with
      | Read =>
        rw [access_hit_read c addr next way hfw, ite_read_write]
        have ht : ((c.count_total Op.Read).touch_as_mru (c.index_of addr) way).lines_at
            (c.index_of addr) =
            touch_as_mru_set ((c.count_total Op.Read).lines_at (c.index_of addr)) way :=
          lines_at_modify_self (c.count_total Op.Read) _ (c.index_of addr)
            (by rw [count_total_sets_vec]; exact h2)
        rw [ht, count_total_lines_at]
      | Write =>
        rw [access_hit_write c addr next way hfw, ite_write_write]
        have ht : (((c.count_total Op.Write).mark_dirty (c.index_of addr) way).touch_as_mru
            (c.index_of addr) way).lines_at (c.index_of addr) =
            touch_as_mru_set (((c.count_total Op.Write).mark_dirty (c.index_of addr)
              way).lines_at (c.index_of addr)) way :=
          lines_at_modify_self ((c.count_total Op.Write).mark_dirty (c.index_of addr) way)
            _ (c.index_of addr)
            (by rw [mark_dirty_sets_vec_length, count_total_sets_vec]; exact h2)
        have hm : ((c.count_total Op.Write).mark_dirty (c.index_of addr) way).lines_at
            (c.index_of addr) =
            List.modify (fun ln => ⟨ln.valid, true, ln.tag, ln.lru_age⟩) way
              ((c.count_total Op.Write).lines_at (c.index_of addr)) :=
          lines_at_modify_self (c.count_total Op.Write) _ (c.index_of addr)
            (by rw [count_total_sets_vec]; exact h2)
        rw [ht, hm, count_total_lines_at]
    · left
      have hlen : ((c.access op addr next).2.1).sets_vec_.length = c.sets_vec_.length := by
        cases op with
        | Read =>
          rw [access_hit_read c addr next way hfw, touch_as_mru_sets_vec_length,
            count_total_sets_vec]
        | Write =>
          rw [access_hit_write c addr next way hfw, touch_as_mru_sets_vec_length,
            mark_dirty_sets_vec_length, count_total_sets_vec]
      rw [lines_at_eq_nil _ s (by omega), lines_at_eq_nil c s (by omega)]
  · left
    cases op with
    | Read =>
      rw [access_hit_read c addr next way hfw]
      have ht : ((c.count_total Op.Read).touch_as_mru (c.index_of addr) way).lines_at s =
          (c.count_total Op.Read).lines_at s :=
        lines_at_modify_other (c.count_total Op.Read) _ (c.index_of addr) s h1
      rw [ht, count_total_lines_at]
    | Write =>
      rw [access_hit_write c addr next way hfw]
      have ht : (((c.count_total Op.Write).mark_dirty (c.index_of addr) way).touch_as_mru
          (c.index_of addr) way).lines_at s =
          ((c.count_total Op.Write).mark_dirty (c.index_of addr) way).lines_at s :=
        lines_at_modify_other ((c.count_total Op.Write).mark_dirty (c.index_of addr) way)
          _ (c.index_of addr) s h1
      have hm : ((c.count_total Op.Write).mark_dirty (c.index_of addr) way).lines_at s =
          (c.count_total Op.Write).lines_at s :=
        lines_at_modify_other (c.count_total Op.Write) _ (c.index_of addr) s h1
      rw [ht, hm, count_total_lines_at]

/-- The source's `allocate_on_miss` changes the calling cache's line storage exactly by
filling the victim way of the indexed set. -/
theorem allocate_on_miss_sets_vec (c : Cache) (addr : Nat) (next : Option Cache)
    (d : Bool) :
    ((c.allocate_on_miss addr next d).1).sets_vec_ =
      List.modify (fun lines => fill_line_set lines
          (c.choose_victim_way (c.index_of addr)) (c.tag_of addr) d)
        (c.index_of addr) c.sets_vec_ := by
  cases next with
  | none =>
    by_cases hPb : ((c.line_at (c.index_of addr)
        (c.choose_victim_way (c.index_of addr))).valid &&
        (c.line_at (c.index_of addr)
          (c.choose_victim_way (c.index_of addr))).dirty) = true
    · simp [Cache.allocate_on_miss, Cache.allocate_on_miss1, Cache.writeback_down1,
        Cache.fill_line, hPb]
    · simp [Cache.allocate_on_miss, Cache.allocate_on_miss1, Cache.writeback_down1,
        Cache.fill_line, hPb]
  | some nl =>
    by_cases hPb : ((c.line_at (c.index_of addr)
        (c.choose_victim_way (c.index_of addr))).valid &&
        (c.line_at (c.index_of addr)
          (c.choose_victim_way (c.index_of addr))).dirty) = true
    · simp [Cache.allocate_on_miss, Cache.writeback_down, Cache.fill_line, hPb]
    · simp [Cache.allocate_on_miss, Cache.writeback_down, Cache.fill_line, hPb]

/-- After a miss, every set is untouched except the accessed one, which has
the new line filled into its victim way. -/
theorem access_miss_lines (c : Cache) (op : Op) (addr : Nat) (next : Option Cache)
    (hfw : c.find_way (c.index_of addr) (c.tag_of addr) = none) (s : Nat) :
    ((c.access op addr next).2.1).lines_at s = c.lines_at s ∨
      (s = c.index_of addr ∧ s < c.sets_vec_.length ∧
        ((c.access op addr next).2.1).lines_at s =
          fill_line_set (c.lines_at s) (c.choose_victim_way s) (c.tag_of addr)
            (op == Op.Write)) := by
  have hacc := access_miss c op addr next hfw
  have hres : ((c.access op addr next).2.1) =
      (Cache.allocate_on_miss ((c.count_total op).count_miss op) addr next
        (op == Op.Write)).1 := by
    rw [hacc]
  have hsv : ((Cache.allocate_on_miss
      { c with stats := ((c.count_total op).count_miss op).stats } addr next
        (op == Op.Write)).1).sets_vec_ =
      List.modify (fun lines => fill_line_set lines
          (c.choose_victim_way (c.index_of addr)) (c.tag_of addr) (op == Op.Write))
        (c.index_of addr) c.sets_vec_ :=
    allocate_on_miss_sets_vec
      { c with stats := ((c.count_total op).count_miss op).stats } addr next
      (op == Op.Write)
  rw [hres, count_state_eq]
  by_cases h1 : s = c.index_of addr
  · by_cases h2 : s < c.sets_vec_.length
    · right
      refine ⟨h1, h2, ?_⟩
      subst h1
      unfold Cache.lines_at
      rw [hsv]
      exact getD_modify_eq _ _ _ _ h2
    · left
      have hlen : ((Cache.allocate_on_miss
          { c with stats := ((c.count_total op).count_miss op).stats } addr next
            (op == Op.Write)).1).sets_vec_.length = c.sets_vec_.length := by
        rw [hsv]
        exact List.length_modify _ _ _
      rw [lines_at_eq_nil _ s (by omega), lines_at_eq_nil c s (by omega)]
  · left
    unfold Cache.lines_at
    rw [hsv]
    exact getD_modify_ne _ _ _ _ _ h1

/-- Pointwise view of the dirty marking of the hit way. -/
theorem markdirty_getD (lines : List Line) (way w : Nat) (hw : w < lines.length) :
    (List.modify (fun ln => ⟨ln.valid, true, ln.tag, ln.lru_age⟩) way lines).getD w
        default =
      if way = w then
        ⟨(lines.getD w default).valid, true, (lines.getD w default).tag,
          (lines.getD w default).lru_age⟩
      else lines.getD w default := by
  by_cases h : way = w
  · subst h
    rw [getD_modify_eq _ _ _ _ hw, if_pos rfl]
  · rw [getD_modify_ne _ _ _ _ _ (fun hh => h hh.symm), if_neg h]

/-- Pointwise view of `touch_as_mru` over a list that agrees with the
original on `valid`, `tag` and `lru_age` at the read way. -/
theorem touch_pointwise (lines marked : List Line) (way w : Nat)
    (hlen : marked.length = lines.length) (hw : w < lines.length)
    (hv : (marked.getD w default).valid = (lines.getD w default).valid)
    (ht : (marked.getD w default).tag = (lines.getD w default).tag)
    (ha : (marked.getD w default).lru_age = (lines.getD w default).lru_age) :
    ((touch_as_mru_set marked way).getD w default).valid =
      (lines.getD w default).valid ∧
    ((touch_as_mru_set marked way).getD w default).tag =
      (lines.getD w default).tag ∧
    (way = w → ((touch_as_mru_set marked way).getD w default).lru_age = 0) ∧
    (way ≠ w → (lines.getD w default).valid = true →
      ((touch_as_mru_set marked way).getD w default).lru_age =
        ((lines.getD w default).lru_age + 1) % 2 ^ 32) := by
  rw [touch_as_mru_set_getD marked way w (by omega)]
  by_cases h : way = w
  · rw [if_pos h]
    exact ⟨hv, ht, fun _ => rfl, fun hne _ => absurd h hne⟩
  · rw [if_neg h]
    refine ⟨?_, ?_, fun heq => absurd heq h, ?_⟩
    · rw [age_valid_valid]
      exact hv
    · rw [age_valid_tag]
      exact ht
    · intro _ hval
      unfold age_valid
      rw [if_pos (by rw [hv]; exact hval), ha]

/-- Pointwise valid/tag/age preservation of the optional dirty marking. -/
theorem hit_mark_pointwise (c : Cache) (op : Op) (way s w : Nat)
    (hw : w < (c.lines_at s).length) :
    (((if op = Op.Write then
        List.modify (fun ln => ⟨ln.valid, true, ln.tag, ln.lru_age⟩) way
          (c.lines_at s)
      else c.lines_at s)).getD w default).valid =
      ((c.lines_at s).getD w default).valid ∧
    (((if op = Op.Write then
        List.modify (fun ln => ⟨ln.valid, true, ln.tag, ln.lru_age⟩) way
          (c.lines_at s)
      else c.lines_at s)).getD w default).tag =
      ((c.lines_at s).getD w default).tag ∧
    (((if op = Op.Write then
        List.modify (fun ln => ⟨ln.valid, true, ln.tag, ln.lru_age⟩) way
          (c.lines_at s)
      else c.lines_at s)).getD w default).lru_age =
      ((c.lines_at s).getD w default).lru_age := by
  cases op with
  | Read =>
    rw [ite_read_write]
    exact ⟨rfl, rfl, rfl⟩
  | Write =>
    rw [ite_write_write, markdirty_getD _ _ _ hw]
    by_cases hww : way = w
    · rw [if_pos hww]
      exact ⟨rfl, rfl, rfl⟩
    · rw [if_neg hww]
      exact ⟨rfl, rfl, rfl⟩

theorem hit_mark_length (c : Cache) (op : Op) (way s : Nat) :
    ((if op = Op.Write then
        List.modify (fun ln => ⟨ln.valid, true, ln.tag, ln.lru_age⟩) way
          (c.lines_at s)
      else c.lines_at s)).length = (c.lines_at s).length := by
  cases op with
  | Read => rw [ite_read_write]
  | Write => rw [ite_write_write, List.length_modify]

/-- One access preserves tag-uniqueness of valid lines. -/
theorem step_C7 (c : Cache) (op : Op) (addr : Nat) (next : Option Cache)
    (h : NoDupValidTags c) : NoDupValidTags ((c.access op addr next).2.1) := by
  intro s i j hij hj hvi hvj
  cases hfw : c.find_way (c.index_of addr) (c.tag_of addr) with
  | some way =>
    rcases access_hit_lines c op addr next way hfw s with heq | ⟨h1, h2, heq⟩
    · rw [heq] at hj hvi hvj ⊢
      exact h s i j hij hj hvi hvj
    · rw [heq] at hj hvi hvj ⊢
      have hj0 : j < (c.lines_at s).length := by
        rw [length_touch_as_mru_set, hit_mark_length] at hj
        exact hj
      have hi0 : i < (c.lines_at s).length := lt_trans hij hj0
      obtain ⟨mvi, mti, mai⟩ := hit_mark_pointwise c op way s i hi0
      obtain ⟨mvj, mtj, maj⟩ := hit_mark_pointwise c op way s j hj0
      obtain ⟨pvi, pti, _, _⟩ :=
        touch_pointwise (c.lines_at s) _ way i (hit_mark_length c op way s) hi0 mvi mti mai
      obtain ⟨pvj, ptj, _, _⟩ :=
        touch_pointwise (c.lines_at s) _ way j (hit_mark_length c op way s) hj0 mvj mtj maj
      rw [pvi] at hvi
      rw [pvj] at hvj
      rw [pti, ptj]
      exact h s i j hij hj0 hvi hvj
  | none =>
    rcases access_miss_lines c op addr next hfw s with heq | ⟨h1, h2, heq⟩
    · rw [heq] at hj hvi hvj ⊢
      exact h s i j hij hj hvi hvj
    · rw [heq] at hj hvi hvj ⊢
      subst h1
      have hj0 : j < (c.lines_at (c.index_of addr)).length := by
        rw [length_fill_line_set] at hj
        exact hj
      have hi0 : i < (c.lines_at (c.index_of addr)).length := lt_trans hij hj0
      have hfw2 : find_way_scan (c.lines_at (c.index_of addr)) (c.tag_of addr) = none := hfw
      have hno : ∀ w, w < (c.lines_at (c.index_of addr)).length →
          ((c.lines_at (c.index_of addr)).getD w default).valid = true →
          ((c.lines_at (c.index_of addr)).getD w default).tag ≠ c.tag_of addr := by
        intro w hw hv hcon
        have hgd : (c.lines_at (c.index_of addr)).getD w default =
            (c.lines_at (c.index_of addr)).get ⟨w, hw⟩ := by
          rw [List.getD_eq_getElem?_getD, List.getElem?_eq_getElem hw]
          rfl
        have hmem : (c.lines_at (c.index_of addr)).getD w default ∈
            c.lines_at (c.index_of addr) := by
          rw [hgd]
          exact List.get_mem _ _ _
        exact (find_way_scan_none_iff _ _).mp hfw2 _ hmem ⟨hv, hcon⟩
      by_cases hiv : i = c.choose_victim_way (c.index_of addr)
      · have hjv : j ≠ c.choose_victim_way (c.index_of addr) := by omega
        rw [fill_line_set_getD_other _ _ _ _ j hj0 hjv] at hvj ⊢
        rw [age_valid_valid] at hvj
        rw [age_valid_tag]
        rw [hiv] at hij ⊢
        rw [fill_line_set_getD_self _ _ _ _ (by omega)]
        exact (hno j hj0 hvj).symm
      · by_cases hjv : j = c.choose_victim_way (c.index_of addr)
        · rw [fill_line_set_getD_other _ _ _ _ i hi0 hiv] at hvi ⊢
          rw [age_valid_valid] at hvi
          rw [age_valid_tag]
          rw [hjv] at hij ⊢
          rw [fill_line_set_getD_self _ _ _ _ (by omega)]
          exact hno i hi0 hvi
        · rw [fill_line_set_getD_other _ _ _ _ i hi0 hiv] at hvi ⊢
          rw [fill_line_set_getD_other _ _ _ _ j hj0 hjv] at hvj ⊢
          rw [age_valid_valid] at hvi hvj
          rw [age_valid_tag, age_valid_tag]
          exact h _ i j hij hj0 hvi hvj

/-- One access preserves distinctness of the valid lines' recencies and
raises the recency bound by at most one, provided the bound stays below the
`uint32_t` wrap point. -/
theorem step_C10b (c : Cache) (op : Op) (addr : Nat) (next : Option Cache)
    (b : Nat) (hb : b + 1 < 2 ^ 32)
    (hd : DistinctValidAges c) (hba : AgeBound b c) :
    DistinctValidAges ((c.access op addr next).2.1) ∧
      AgeBound (b + 1) ((c.access op addr next).2.1) := by
  constructor
  · intro s i j hij hj hvi hvj
    cases hfw : c.find_way (c.index_of addr) (c.tag_of addr) with
    | some way =>
      rcases access_hit_lines c op addr next way hfw s with heq | ⟨h1, h2, heq⟩
      · rw [heq] at hj hvi hvj ⊢
        exact hd s i j hij hj hvi hvj
      · rw [heq] at hj hvi hvj ⊢
        have hj0 : j < (c.lines_at s).length := by
          rw [length_touch_as_mru_set, hit_mark_length] at hj
          exact hj
        have hi0 : i < (c.lines_at s).length := lt_trans hij hj0
        obtain ⟨mvi, mti, mai⟩ := hit_mark_pointwise c op way s i hi0
        obtain ⟨mvj, mtj, maj⟩ := hit_mark_pointwise c op way s j hj0
        obtain ⟨pvi, _, pzi, psi⟩ :=
          touch_pointwise (c.lines_at s) _ way i (hit_mark_length c op way s) hi0 mvi mti mai
        obtain ⟨pvj, _, pzj, psj⟩ :=
          touch_pointwise (c.lines_at s) _ way j (hit_mark_length c op way s) hj0 mvj mtj maj
        rw [pvi] at hvi
        rw [pvj] at hvj
        have hbi := hba s i hi0 hvi
        have hbj := hba s j hj0 hvj
        have hmi : (((c.lines_at s).getD i default).lru_age + 1) % 2 ^ 32 =
            ((c.lines_at s).getD i default).lru_age + 1 :=
          Nat.mod_eq_of_lt (by omega)
        have hmj : (((c.lines_at s).getD j default).lru_age + 1) % 2 ^ 32 =
            ((c.lines_at s).getD j default).lru_age + 1 :=
          Nat.mod_eq_of_lt (by omega)
        by_cases hwi : way = i
        · have hwj : way ≠ j := by omega
          rw [pzi hwi, psj hwj hvj, hmj]
          omega
        · by_cases hwj : way = j
          · rw [pzj hwj, psi hwi hvi, hmi]
            omega
          · rw [psi hwi hvi, psj hwj hvj, hmi, hmj]
            have := hd s i j hij hj0 hvi hvj
            omega
    | none =>
      rcases access_miss_lines c op addr next hfw s with heq | ⟨h1, h2, heq⟩
      · rw [heq] at hj hvi hvj ⊢
        exact hd s i j hij hj hvi hvj
      · rw [heq] at hj hvi hvj ⊢
        subst h1
        have hj0 : j < (c.lines_at (c.index_of addr)).length := by
          rw [length_fill_line_set] at hj
          exact hj
        have hi0 : i < (c.lines_at (c.index_of addr)).length := lt_trans hij hj0
        by_cases hiv : i = c.choose_victim_way (c.index_of addr)
        · have hjv : j ≠ c.choose_victim_way (c.index_of addr) := by omega
          rw [fill_line_set_getD_other _ _ _ _ j hj0 hjv] at hvj ⊢
          rw [age_valid_valid] at hvj
          have hbj := hba _ j hj0 hvj
          rw [hiv] at hij ⊢
          rw [fill_line_set_getD_self _ _ _ _ (by omega)]
          unfold age_valid
          rw [if_pos hvj]
          intro hcon
          have hcon2 : (0 : Nat) =
              (((c.lines_at (c.index_of addr)).getD j default).lru_age + 1) % 2 ^ 32 :=
            hcon
          rw [Nat.mod_eq_of_lt (by omega)] at hcon2
          omega
        · by_cases hjv : j = c.choose_victim_way (c.index_of addr)
          · rw [fill_line_set_getD_other _ _ _ _ i hi0 hiv] at hvi ⊢
            rw [age_valid_valid] at hvi
            have hbi := hba _ i hi0 hvi
            rw [hjv] at hij ⊢
            rw [fill_line_set_getD_self _ _ _ _ (by omega)]
            unfold age_valid
            rw [if_pos hvi]
            intro hcon
            have hcon2 : (((c.lines_at (c.index_of addr)).getD i default).lru_age + 1) %
                2 ^ 32 = (0 : Nat) := hcon
            rw [Nat.mod_eq_of_lt (by omega)] at hcon2
            omega
          · rw [fill_line_set_getD_other _ _ _ _ i hi0 hiv] at hvi ⊢
            rw [fill_line_set_getD_other _ _ _ _ j hj0 hjv] at hvj ⊢
            rw [age_valid_valid] at hvi hvj
            have hbi := hba _ i hi0 hvi
            have hbj := hba _ j hj0 hvj
            unfold age_valid
            rw [if_pos hvi, if_pos hvj]
            have hne := hd _ i j hij hj0 hvi hvj
            intro hcon
            have hcon2 : (((c.lines_at (c.index_of addr)).getD i default).lru_age + 1) %
                2 ^ 32 =
                (((c.lines_at (c.index_of addr)).getD j default).lru_age + 1) % 2 ^ 32 :=
              hcon
            rw [Nat.mod_eq_of_lt (by omega), Nat.mod_eq_of_lt (by omega)] at hcon2
            exact hne (by omega)
  · intro s w hw hvw
    cases hfw : c.find_way (c.index_of addr) (c.tag_of addr) with
    | some way =>
      rcases access_hit_lines c op addr next way hfw s with heq | ⟨h1, h2, heq⟩
      · rw [heq] at hw hvw ⊢
        exact le_trans (hba s w hw hvw) (by omega)
      · rw [heq] at hw hvw ⊢
        have hw0 : w < (c.lines_at s).length := by
          rw [length_touch_as_mru_set, hit_mark_length] at hw
          exact hw
        obtain ⟨mv, mt, ma⟩ := hit_mark_pointwise c op way s w hw0
        obtain ⟨pv, _, pz, ps⟩ :=
          touch_pointwise (c.lines_at s) _ way w (hit_mark_length c op way s) hw0 mv mt ma
        rw [pv] at hvw
        by_cases hww : way = w
        · rw [pz hww]
          omega
        · rw [ps hww hvw]
          have hbw := hba s w hw0 hvw
          rw [Nat.mod_eq_of_lt (by omega)]
          omega
    | none =>
      rcases access_miss_lines c op addr next hfw s with heq | ⟨h1, h2, heq⟩
      · rw [heq] at hw hvw ⊢
        exact le_trans (hba s w hw hvw) (by omega)
      · rw [heq] at hw hvw ⊢
        subst h1
        have hw0 : w < (c.lines_at (c.index_of addr)).length := by
          rw [length_fill_line_set] at hw
          exact hw
        by_cases hwv : w = c.choose_victim_way (c.index_of addr)
        · rw [hwv] at hw0 ⊢
          rw [fill_line_set_getD_self _ _ _ _ hw0]
          exact Nat.zero_le _
        · rw [fill_line_set_getD_other _ _ _ _ w hw0 hwv] at hvw ⊢
          rw [age_valid_valid] at hvw
          have hbw := hba _ w hw0 hvw
          unfold age_valid
          rw [if_pos hvw, Nat.mod_eq_of_lt (by omega)]
          have hfin : ((c.lines_at (c.index_of addr)).getD w default).lru_age + 1 ≤ b + 1 :=
            by omega
          exact hfin

/-- Every line of a freshly constructed cache is invalid. -/
theorem construct_lines_invalid (cfg : CacheConfig) (s w : Nat) :
    ((((Cache.construct cfg).lines_at s)).getD w default).valid = false := by
  simp only [Cache.construct, Cache.lines_at]
  rw [List.getD_eq_getElem?_getD
    (List.map (fun _ => initSet cfg.assoc)
      (List.range (cfg.size_bytes / (cfg.assoc * cfg.block_bytes)))) s [],
    List.getElem?_map]
  cases hx : (List.range (cfg.size_bytes / (cfg.assoc * cfg.block_bytes)))[s]? with
  | none => rfl
  | some v =>
    show (((initSet cfg.assoc)).getD w default).valid = false
    unfold initSet
    rw [List.getD_eq_getElem?_getD (List.map initLine (List.range cfg.assoc)) w default,
      List.getElem?_map]
    cases hy : (List.range cfg.assoc)[w]? with
    | none => rfl
    | some u => rfl

theorem base_C7 (cfg : CacheConfig) : NoDupValidTags (Cache.construct cfg) := by
  intro s i j _ _ hvi _
  rw [construct_lines_invalid] at hvi
  cases hvi

theorem base_C10 (cfg : CacheConfig) : DistinctValidAges (Cache.construct cfg) := by
  intro s i j _ _ hvi _
  rw [construct_lines_invalid] at hvi
  cases hvi

theorem run_C7 (tr : List (Op × Nat × Option Cache)) :
    ∀ c : Cache, NoDupValidTags c → NoDupValidTags (Cache.run c tr) := by
  induction tr with
  | nil => exact fun c h => h
  | cons e rest ih =>
    intro c h
    obtain ⟨op, addr, nl⟩ := e
    simp only [Cache.run]
    exact ih _ (step_C7 c op addr nl h)

theorem run_C10b (tr : List (Op × Nat × Option Cache)) :
    ∀ (c : Cache) (b : Nat), b + tr.length < 2 ^ 32 →
      DistinctValidAges c → AgeBound b c →
      DistinctValidAges (Cache.run c tr) ∧ AgeBound (b + tr.length) (Cache.run c tr) := by
  induction tr with
  | nil => exact fun c b _ hd hba => ⟨hd, hba⟩
  | cons e rest ih =>
    intro c b hlen hd hba
    obtain ⟨op, addr, nl⟩ := e
    rw [List.length_cons] at hlen
    obtain ⟨hd1, hba1⟩ := step_C10b c op addr nl b (by omega) hd hba
    have hrest := ih ((c.access op addr nl).2.1) (b + 1) (by omega) hd1 hba1
    simp only [Cache.run]
    refine ⟨hrest.1, ?_⟩
    have heq : b + ((op, addr, nl) :: rest).length = b + 1 + rest.length := by
      rw [List.length_cons]
      omega
    rw [heq]
    exact hrest.2

theorem base_C10_bound (cfg : CacheConfig) : AgeBound 0 (Cache.construct cfg) := by
  intro s w _ hv
  rw [construct_lines_invalid] at hv
  cases hv

/-- C7: in every state reachable from construction by any sequence of
accesses, no set holds two valid lines with equal tags, so the
hit-detection scan can never match two ways. -/
theorem claim_C7 (cfg : CacheConfig) (tr : List (Op × Nat × Option Cache)) :
    NoDupValidTags (Cache.run (Cache.construct cfg) tr) :=
  run_C7 tr (Cache.construct cfg) (base_C7 cfg)

/-- Witness for C7 on a concrete two-way cache and trace. -/
theorem claim_C7_witness :
    NoDupValidTags (Cache.run (Cache.construct ⟨64, 2, 16⟩)
      [(Op.Read, 0, none), (Op.Write, 64, none), (Op.Read, 128, none)]) :=
  claim_C7 ⟨64, 2, 16⟩ [(Op.Read, 0, none), (Op.Write, 64, none), (Op.Read, 128, none)]

/-- The source's `access` on `wrapState a r` (a full one-set two-way cache
whose way 1 holds the block of address 32) is a hit on way 1: way 0, being
valid, is aged by the wrapping `uint32_t` increment and the read counter
advances. -/
theorem wrapState_access (a r : Nat) :
    (wrapState a r).access Op.Read 32 none =
      (true, wrapState ((a + 1) % 2 ^ 32) (r + 1), none) := by
  have hidx : (wrapState a r).index_of 32 = 0 := by
    simp [Cache.index_of, wrapState]
  simp only [Cache.access, hidx]
  rfl

/-- Running `n` repeated hits on way 1 of `wrapState` ages way 0 by `n`
modulo `2 ^ 32`. -/
theorem wrapState_run (n : Nat) :
    ∀ a r : Nat, a < 2 ^ 32 →
      Cache.run (wrapState a r) (List.replicate n (Op.Read, 32, none)) =
        wrapState ((a + n) % 2 ^ 32) (r + n) := by
  induction n with
  | zero =>
    intro a r ha
    show wrapState a r = wrapState ((a + 0) % 2 ^ 32) (r + 0)
    rw [Nat.add_zero, Nat.add_zero, Nat.mod_eq_of_lt ha]
  | succ n ih =>
    intro a r ha
    rw [List.replicate_succ]
    show Cache.run (((wrapState a r).access Op.Read 32 none).2.1)
      (List.replicate n (Op.Read, 32, none)) =
      wrapState ((a + (n + 1)) % 2 ^ 32) (r + (n + 1))
    rw [wrapState_access]
    show Cache.run (wrapState ((a + 1) % 2 ^ 32) (r + 1))
      (List.replicate n (Op.Read, 32, none)) =
      wrapState ((a + (n + 1)) % 2 ^ 32) (r + (n + 1))
    rw [ih ((a + 1) % 2 ^ 32) (r + 1) (Nat.mod_lt _ (by omega))]
    have e1 : ((a + 1) % 2 ^ 32 + n) % 2 ^ 32 = (a + (n + 1)) % 2 ^ 32 := by
      rw [Nat.mod_add_mod]
      congr 1
      omega
    have e2 : r + 1 + n = r + (n + 1) := by omega
    rw [e1, e2]

/-- Counterexample to the claim as stated: on a 64-byte direct-geometry
cache (one set, two ways, 32-byte blocks), a run of `2 ^ 32 + 1` accesses —
two cold misses filling both ways and then `2 ^ 32 - 1` repeated hits on
way 1 — wraps way 0's `uint32_t` recency counter back to 0, leaving both
valid lines of the set with recency 0, so their recencies are not pairwise
distinct. -/
theorem claim_C10_counterexample :
    ¬ DistinctValidAges (Cache.run (Cache.construct ⟨64, 2, 32⟩)
        ([((Op.Read : Op), (0 : Nat), (none : Option Cache)), (Op.Read, 32, none)] ++
          List.replicate (2 ^ 32 - 1) (Op.Read, 32, none))) := by
  intro h
  rw [run_append] at h
  have h2 : Cache.run (Cache.construct ⟨64, 2, 32⟩)
      [((Op.Read : Op), (0 : Nat), (none : Option Cache)), (Op.Read, 32, none)] =
      wrapState 1 2 := by decide
  rw [h2, wrapState_run (2 ^ 32 - 1) 1 2 (by omega)] at h
  have h3 : (1 + (2 ^ 32 - 1)) % 2 ^ 32 = 0 := by omega
  rw [h3] at h
  exact h 0 0 1 (by decide) (by decide) (by decide) (by decide) (by decide)

/-- C10 (amended): along every run of fewer than `2 ^ 32` access calls from
construction, the valid lines of any one set carry pairwise distinct
recency values, so MRU→LRU order is a strict total order and the snapshot's
recency sort is deterministic. Beyond `2 ^ 32 - 1` accesses the `uint32_t`
recency counter can wrap and equal another valid line's recency, as
`claim_C10_counterexample` shows. -/
theorem claim_C10 (cfg : CacheConfig) (tr : List (Op × Nat × Option Cache))
    (hlen : tr.length < 2 ^ 32) :
    DistinctValidAges (Cache.run (Cache.construct cfg) tr) :=
  (run_C10b tr (Cache.construct cfg) 0 (by omega) (base_C10 cfg)
    (base_C10_bound cfg)).1

/-- Witness for C10 on a concrete two-way cache and trace. -/
theorem claim_C10_witness :
    ([((Op.Read : Op), (0 : Nat), (none : Option Cache)), (Op.Write, 64, none),
        (Op.Read, 128, none)]).length < 2 ^ 32 ∧
    DistinctValidAges (Cache.run (Cache.construct ⟨64, 2, 16⟩)
      [(Op.Read, 0, none), (Op.Write, 64, none), (Op.Read, 128, none)]) :=
  ⟨by decide, claim_C10 ⟨64, 2, 16⟩
    [(Op.Read, 0, none), (Op.Write, 64, none), (Op.Read, 128, none)] (by decide)⟩

/-! ### Reset -/

theorem cache_ext (a b : Cache) (h1 : a.cfg = b.cfg) (h2 : a.stats = b.stats)
    (h3 : a.sets_ = b.sets_) (h4 : a.off_bits_ = b.off_bits_)
    (h5 : a.idx_bits_ = b.idx_bits_) (h6 : a.idx_mask_ = b.idx_mask_)
    (h7 : a.sets_vec_ = b.sets_vec_) : a = b := by
  cases a
  cases b
  simp_all

/-- The source's `allocate_on_miss` never touches the configuration or geometry. -/
theorem allocate_on_miss_geom (c : Cache) (addr : Nat) (next : Option Cache)
    (d : Bool) :
    ((c.allocate_on_miss addr next d).1).cfg = c.cfg ∧
    ((c.allocate_on_miss addr next d).1).sets_ = c.sets_ ∧
    ((c.allocate_on_miss addr next d).1).off_bits_ = c.off_bits_ ∧
    ((c.allocate_on_miss addr next d).1).idx_bits_ = c.idx_bits_ ∧
    ((c.allocate_on_miss addr next d).1).idx_mask_ = c.idx_mask_ := by
  cases next with
  | none =>
    by_cases hPb : ((c.line_at (c.index_of addr)
        (c.choose_victim_way (c.index_of addr))).valid &&
        (c.line_at (c.index_of addr)
          (c.choose_victim_way (c.index_of addr))).dirty) = true
    · simp [Cache.allocate_on_miss, Cache.allocate_on_miss1, Cache.writeback_down1,
        Cache.fill_line, hPb]
    · simp [Cache.allocate_on_miss, Cache.allocate_on_miss1, Cache.writeback_down1,
        Cache.fill_line, hPb]
  | some nl =>
    by_cases hPb : ((c.line_at (c.index_of addr)
        (c.choose_victim_way (c.index_of addr))).valid &&
        (c.line_at (c.index_of addr)
          (c.choose_victim_way (c.index_of addr))).dirty) = true
    · simp [Cache.allocate_on_miss, Cache.writeback_down, Cache.fill_line, hPb]
    · simp [Cache.allocate_on_miss, Cache.writeback_down, Cache.fill_line, hPb]

/-- The source's `access` never touches the configuration or geometry of the cache it
is invoked on. -/
theorem access_geom (c : Cache) (op : Op) (addr : Nat) (next : Option Cache) :
    ((c.access op addr next).2.1).cfg = c.cfg ∧
    ((c.access op addr next).2.1).sets_ = c.sets_ ∧
    ((c.access op addr next).2.1).off_bits_ = c.off_bits_ ∧
    ((c.access op addr next).2.1).idx_bits_ = c.idx_bits_ ∧
    ((c.access op addr next).2.1).idx_mask_ = c.idx_mask_ := by
  cases hfw : c.find_way (c.index_of addr) (c.tag_of addr) with
  | some way =>
    cases op with
    | Read =>
      rw [access_hit_read c addr next way hfw]
      exact ⟨rfl, rfl, rfl, rfl, rfl⟩
    | Write =>
      rw [access_hit_write c addr next way hfw]
      exact ⟨rfl, rfl, rfl, rfl, rfl⟩
  | none =>
    have hacc := access_miss c op addr next hfw
    have hres : ((c.access op addr next).2.1) =
        (Cache.allocate_on_miss ((c.count_total op).count_miss op) addr next
          (op == Op.Write)).1 := by
      rw [hacc]
    rw [hres, count_state_eq]
    exact allocate_on_miss_geom
      { c with stats := ((c.count_total op).count_miss op).stats } addr next
      (op == Op.Write)

theorem run_geom (tr : List (Op × Nat × Option Cache)) :
    ∀ c : Cache,
      (Cache.run c tr).cfg = c.cfg ∧ (Cache.run c tr).sets_ = c.sets_ ∧
      (Cache.run c tr).off_bits_ = c.off_bits_ ∧
      (Cache.run c tr).idx_bits_ = c.idx_bits_ ∧
      (Cache.run c tr).idx_mask_ = c.idx_mask_ := by
  induction tr with
  | nil => exact fun c => ⟨rfl, rfl, rfl, rfl, rfl⟩
  | cons e rest ih =>
    intro c
    obtain ⟨op, addr, nl⟩ := e
    obtain ⟨a1, a2, a3, a4, a5⟩ := access_geom c op addr nl
    obtain ⟨b1, b2, b3, b4, b5⟩ := ih ((c.access op addr nl).2.1)
    simp only [Cache.run]
    exact ⟨b1.trans a1, b2.trans a2, b3.trans a3, b4.trans a4, b5.trans a5⟩

/-- C9: after any run, the (spec-modelled) reset returns the instance to
exactly the freshly constructed state for the same geometry, and — the
engine state being an explicit value — resetting one instance leaves any
other instance untouched. -/
theorem claim_C9 (cfg : CacheConfig) (tr : List (Op × Nat × Option Cache)) :
    (Cache.run (Cache.construct cfg) tr).reset = Cache.construct cfg ∧
    ∀ d : Cache, (((Cache.run (Cache.construct cfg) tr).reset), d).2 = d := by
  obtain ⟨g1, g2, g3, g4, g5⟩ := run_geom tr (Cache.construct cfg)
  refine ⟨?_, fun d => rfl⟩
  apply cache_ext
  · show (Cache.run (Cache.construct cfg) tr).cfg = _
    rw [g1]
  · rfl
  · show (Cache.run (Cache.construct cfg) tr).sets_ = _
    rw [g2]
  · show (Cache.run (Cache.construct cfg) tr).off_bits_ = _
    rw [g3]
  · show (Cache.run (Cache.construct cfg) tr).idx_bits_ = _
    rw [g4]
  · show (Cache.run (Cache.construct cfg) tr).idx_mask_ = _
    rw [g5]
  · show (List.range (Cache.run (Cache.construct cfg) tr).sets_).map
        (fun _ => initSet (Cache.run (Cache.construct cfg) tr).cfg.assoc) = _
    rw [g1, g2]
    rfl

/-- Witness for C9 at a concrete configuration and trace. -/
theorem claim_C9_witness :
    (Cache.run (Cache.construct ⟨64, 2, 16⟩) [(Op.Write, 0, none)]).reset =
        Cache.construct ⟨64, 2, 16⟩ ∧
      ∀ d : Cache,
        (((Cache.run (Cache.construct ⟨64, 2, 16⟩) [(Op.Write, 0, none)]).reset), d).2 = d :=
  claim_C9 ⟨64, 2, 16⟩ [(Op.Write, 0, none)]

/-! ### The contents snapshot -/

/-- C8: the snapshot lists exactly the sets with a valid line, as
(tag, dirty) pairs sorted MRU→LRU (a recency-sorted permutation of the
set's valid lines), and — being a pure function of the state — yields
identical output when repeated. -/
theorem claim_C8 (c : Cache) : snapshot_post c := by
  refine ⟨?_, ?_, rfl⟩
  · intro s out
    unfold Cache.print_contents
    rw [List.mem_filterMap]
    constructor
    · rintro ⟨a, ha, hfa⟩
      by_cases hemp : (c.lines_at a).filter (fun ln => ln.valid) = []
      · rw [if_pos hemp] at hfa
        cases hfa
      · rw [if_neg hemp] at hfa
        injection hfa with h
        have h1 : a = s := congrArg Prod.fst h
        have h2 : snapshot_set (c.lines_at a) = out := congrArg Prod.snd h
        subst h1
        exact ⟨List.mem_range.mp ha, hemp, h2.symm⟩
    · rintro ⟨hs, hemp, hout⟩
      refine ⟨s, List.mem_range.mpr hs, ?_⟩
      rw [if_neg hemp, hout]
  · intro s
    refine ⟨_, List.mergeSort_perm ((c.lines_at s).filter (fun ln => ln.valid))
        (fun a b => decide (a.lru_age ≤ b.lru_age)), ?_, ?_⟩
    · have hsorted := @List.sorted_mergeSort Line
        (fun a b : Line => decide (a.lru_age ≤ b.lru_age))
        (fun a b x hab hbx => by
          simp only [decide_eq_true_eq] at hab hbx ⊢
          omega)
        (fun a b => by
          simp only [Bool.or_eq_true, decide_eq_true_eq]
          omega)
        ((c.lines_at s).filter (fun ln => ln.valid))
      exact hsorted.imp (fun hab => by simpa using hab)
    · rfl

/-- Witness for C8 at the concrete two-line cache. -/
theorem claim_C8_witness : snapshot_post sampleCacheA := claim_C8 sampleCacheA

end CacheSim
